import Mathlib

/-! # ADIOS custom dump writer (`src/ADIOS/dump_custom_adios*.cpp`)

A shallow embedding of `DumpCustomADIOSTrack::write`, `DumpCustomADIOS::openfile`
and `DumpCustomADIOS::~DumpCustomADIOS`, together with the properties of the
distributed snapshot writer that follow from the code.

Conventions of the embedding:

* C++ `int` and `bigint` (`int64_t`) values are `Int`; every arithmetic result is
  wrapped to the width of its C++ type (`wrapInt`, `wrapBigint`), and
  `static_cast<size_t>` is `toSizeT`.
* One call of `write()` on one rank is a function from the writer's fields
  (`DumpState`), the construction-time settings (`Config`) and what the
  collaborators return in this step (`StepInput`) to the new fields, the list of
  calls issued to MPI / the memory pool / the ADIOS2 engine (`Event`), and the
  fatal error, if any.
* `double` values are only copied by this code, never computed on; their carrier
  is `Dbl`.
* The ADIOS2 engine is an external service. `io.Open` returns a handle that is
  valid or not (`operator bool`); `Engine::Close` leaves the handle invalid; the
  other engine calls leave its validity as it is.
* A fatal error (`error->all`, `error->one`) ends the run: no later statement of
  `write()` and no later `write()` is executed.
-/

namespace DumpADIOS

/-! ## Machine integers -/

/-- Value of a C++ `int` (32-bit two's complement) holding the integer `x`. -/
def wrapInt (x : Int) : Int := (x + 2 ^ 31) % 2 ^ 32 - 2 ^ 31

/-- Modelled from the spec: `bigint` is declared in `lmptype.h`, which is not
among the sources; the schema stores the row counts as 64-bit integers. Value of
a `bigint` (`int64_t`, two's complement) holding the integer `x`. -/
def wrapBigint (x : Int) : Int := (x + 2 ^ 63) % 2 ^ 64 - 2 ^ 63

/-- Conversion `static_cast<size_t>(x)` / to `uint64_t` of a signed value. -/
def toSizeT (x : Int) : Nat := (x % 2 ^ 64).toNat

/-- Modelled from the spec: `MAXSMALLINT` is defined in `lmptype.h`, which is not
among the sources; it is the "representable bound" of the capacity error, the
largest C++ `int`. -/
def MAXSMALLINT : Int := 2147483647

/-- Carrier of `double` values (copied, never computed on). -/
abbrev Dbl := Int

/-! ## Collective operations -/

/-- The call `MPI_Allreduce(&bnme, &ntotal, 1, MPI_LMP_BIGINT, MPI_SUM, world)`:
every rank receives the sum of the contributions of all ranks, as a `bigint`. -/
def MPI_Allreduce_SUM (contrib : List Int) : Int := wrapBigint contrib.sum

/-- The call `MPI_Scan(&bnme, &atomOffset, 1, MPI_LMP_BIGINT, MPI_SUM, world)`:
rank `me` receives the sum of the contributions of ranks `0..me` inclusive. -/
def MPI_Scan_SUM (contrib : List Int) (me : Nat) : Int :=
  wrapBigint (contrib.take (me + 1)).sum

/-! ## Data model -/

/-- Value handed to `Engine::Put`. -/
inductive Value where
  | u64 (v : Nat)
  | i32 (v : Int)
  | f64 (v : Dbl)
  | rows (capacity : Nat)
  deriving DecidableEq, Repr

/-- Calls issued by the writer, in program order. -/
inductive Event where
  | count
  | Allreduce (bnme : Int)
  | Scan (bnme : Int)
  | SetShape (shape : List Nat)
  | SetSelection (start : List Nat) (cnt : List Nat)
  | errorAll (msg : String)
  | errorOne (msg : String)
  | destroyBuf
  | createBuf (n : Int)
  | destroyIds
  | createIds (n : Int)
  | pack (withIds : Bool)
  | sort
  | Open (name : String) (valid : Bool)
  | BeginStep
  | Put (name : String) (v : Value)
  | EndStep
  | Close
  deriving DecidableEq, Repr

/-- Settings fixed when the dump is constructed. -/
structure Config where
  me : Nat
  nprocs : Int
  multifile : Int
  size_one : Int
  sort_flag : Int
  sortcol : Int
  filename : String
  padflag : Int
  deriving DecidableEq, Repr

/-- What the collaborators return during one step: `count()` on every rank of
`world`, `update->ntimestep`, the `domain` fields read by `write()`, and whether
`io.Open` yields a valid engine handle. -/
structure StepInput where
  counts : List Nat
  ntimestep : Int
  triclinic : Int
  boxlo : Dbl × Dbl × Dbl
  boxhi : Dbl × Dbl × Dbl
  boxlo_bound : Dbl × Dbl × Dbl
  boxhi_bound : Dbl × Dbl × Dbl
  xy : Dbl
  xz : Dbl
  yz : Dbl
  openValid : Bool
  deriving DecidableEq, Repr

/-- The `adios2::Variable<double> varAtoms`: global shape and selection. -/
structure VarAtoms where
  shape : List Nat
  start : List Nat
  cnt : List Nat
  deriving DecidableEq, Repr

/-- Fields of the writer that `write()`, `openfile()` and the destructor read or
assign. `buf` and `ids` are the numbers of elements allocated; `fh` is whether
`internal->fh` is a valid (open) engine handle. -/
structure DumpState where
  boxxlo : Dbl
  boxxhi : Dbl
  boxylo : Dbl
  boxyhi : Dbl
  boxzlo : Dbl
  boxzhi : Dbl
  boxxy : Dbl
  boxxz : Dbl
  boxyz : Dbl
  nme : Int
  ntotal : Int
  maxbuf : Int
  buf : Nat
  maxids : Int
  ids : Nat
  singlefile_opened : Int
  fh : Bool
  varAtoms : VarAtoms
  deriving DecidableEq, Repr

/-- Result of one call: the fields afterwards, the calls issued, and the message
of the fatal error (`error->all` / `error->one`) that ended the run, if any. -/
structure WriteResult where
  state : DumpState
  events : List Event
  fatal : Option String
  deriving DecidableEq, Repr

/-- Modelled from the spec: the base `Dump` constructor is not among the
sources. State of a freshly constructed writer: the row buffer "is allocated
lazily", so `maxbuf = 0`, `buf = nullptr`, `maxids = 0`, `ids = nullptr`, and no
file has been opened (`singlefile_opened = 0`). `internal->fh` is the
default-constructed (invalid) `adios2::Engine` of `DumpCustomADIOSInternal`. -/
def fresh : DumpState :=
  { boxxlo := 0, boxxhi := 0, boxylo := 0, boxyhi := 0, boxzlo := 0, boxzhi := 0,
    boxxy := 0, boxxz := 0, boxyz := 0, nme := 0, ntotal := 0,
    maxbuf := 0, buf := 0, maxids := 0, ids := 0,
    singlefile_opened := 0, fh := false,
    varAtoms := { shape := [1, 0], start := [1, 0], cnt := [1, 0] } }

/-! ## File naming -/

/-- Decimal digits of `n` left-padded with `'0'` to at least `width` characters. -/
def zeroPad (width : Nat) (n : Nat) : List Char :=
  List.replicate (width - (Nat.toDigits 10 n).length) '0' ++ Nat.toDigits 10 n

/-- Modelled from the spec: `utils::star_subst` is not among the sources. "The
output name is derived by substituting a step-number token into a name pattern,
with optional fixed-width zero-padding": the first `'*'` of `name` is replaced by
the step number, zero-padded to `pad` characters; a name without `'*'` is
returned as it is. -/
def star_subst (name : String) (step : Int) (pad : Int) : String :=
  if '*' ∈ name.toList then
    String.mk (name.toList.takeWhile (fun c => c != '*')
      ++ zeroPad pad.toNat step.toNat
      ++ (name.toList.dropWhile (fun c => c != '*')).tail)
  else name

/-! ## `DumpCustomADIOS::openfile` (dump_custom_adios.cpp, lines 74-88) -/

/-- The method `openfile()`. `io.Open` returns a valid engine handle exactly when
`inp.openValid`; an invalid handle is the fatal `error->one`. -/
def openfile (cfg : Config) (inp : StepInput) (s : DumpState) : WriteResult :=
  if cfg.multifile ≠ 0 then
    let filecurrent := star_subst cfg.filename inp.ntimestep cfg.padflag
    let s1 := { s with fh := inp.openValid }
    if s1.fh = false then
      { state := s1,
        events := [Event.Open filecurrent inp.openValid,
                   Event.errorOne ("Cannot open dump file " ++ filecurrent)],
        fatal := some ("Cannot open dump file " ++ filecurrent) }
    else
      { state := s1, events := [Event.Open filecurrent inp.openValid], fatal := none }
  else
    if s.singlefile_opened = 0 then
      let s1 := { s with fh := inp.openValid }
      if s1.fh = false then
        { state := s1,
          events := [Event.Open cfg.filename inp.openValid,
                     Event.errorOne ("Cannot open dump file " ++ cfg.filename)],
          fatal := some ("Cannot open dump file " ++ cfg.filename) }
      else
        { state := { s1 with singlefile_opened := 1 },
          events := [Event.Open cfg.filename inp.openValid], fatal := none }
    else
      { state := s, events := [], fatal := none }

/-! ## `DumpCustomADIOS::~DumpCustomADIOS` (dump_custom_adios.cpp, lines 64-70) -/

/-- The destructor: `if (internal->fh) internal->fh.Close();`. `Close` leaves
the handle invalid. -/
def destructor (s : DumpState) : DumpState × List Event :=
  if s.fh = true then ({ s with fh := false }, [Event.Close]) else (s, [])

/-! ## `DumpCustomADIOSTrack::write` (dump_custom_adios_track.cpp, lines 64-167) -/

/-- Lines 66-83: copy the box bounds of this step from `domain`. -/
def write_box (inp : StepInput) (s : DumpState) : DumpState :=
  if inp.triclinic = 0 then
    { s with boxxlo := inp.boxlo.1, boxxhi := inp.boxhi.1,
             boxylo := inp.boxlo.2.1, boxyhi := inp.boxhi.2.1,
             boxzlo := inp.boxlo.2.2, boxzhi := inp.boxhi.2.2 }
  else
    { s with boxxlo := inp.boxlo_bound.1, boxxhi := inp.boxhi_bound.1,
             boxylo := inp.boxlo_bound.2.1, boxyhi := inp.boxhi_bound.2.1,
             boxzlo := inp.boxlo_bound.2.2, boxzhi := inp.boxhi_bound.2.2,
             boxxy := inp.xy, boxxz := inp.xz, boxyz := inp.yz }

/-- Line 87: `nme = count()` on rank `me`. -/
def localCount (cfg : Config) (inp : StepInput) : Int := (inp.counts.getD cfg.me 0 : Nat)

/-- Contribution `bnme` of every rank of `world`, in rank order (line 92). -/
def contributions (inp : StepInput) : List Int :=
  inp.counts.map (fun (c : Nat) => (c : Int))

/-- Line 93: `ntotal` as received from `MPI_Allreduce`. -/
def globalTotal (inp : StepInput) : Int := MPI_Allreduce_SUM (contributions inp)

/-- Lines 95-97: `atomOffset` after `MPI_Scan` and `atomOffset -= nme`. -/
def atomOffset (cfg : Config) (inp : StepInput) : Int :=
  wrapBigint (MPI_Scan_SUM (contributions inp) cfg.me - localCount cfg inp)

/-- Lines 85-106: local count, global total, exclusive offset, and the shape and
selection of `varAtoms`. -/
def write_sizes (cfg : Config) (inp : StepInput) (s : DumpState) : DumpState × List Event :=
  let nme := localCount cfg inp
  let bnme := nme
  let ntotal := globalTotal inp
  let atomOffset := atomOffset cfg inp
  let nAtomsGlobal := toSizeT ntotal
  let startRow := toSizeT atomOffset
  let nAtomsLocal := toSizeT nme
  let nColumns := toSizeT cfg.size_one
  ({ s with nme := nme, ntotal := ntotal,
            varAtoms := { shape := [nAtomsGlobal, nColumns],
                          start := [startRow, 0],
                          cnt := [nAtomsLocal, nColumns] } },
   [Event.count, Event.Allreduce bnme, Event.Scan bnme,
    Event.SetShape [nAtomsGlobal, nColumns],
    Event.SetSelection [startRow, 0] [nAtomsLocal, nColumns]])

/-- Lines 120-130: grow `ids` when sorting on IDs, then `pack` and `sort`. -/
def write_pack (cfg : Config) (s : DumpState) : DumpState × List Event :=
  let grow := cfg.sort_flag ≠ 0 ∧ cfg.sortcol = 0 ∧ s.nme > s.maxids
  let s1 := if grow then { s with maxids := s.nme, ids := s.nme.toNat } else s
  let ev1 := if grow then [Event.destroyIds, Event.createIds s.nme] else []
  let ev2 := if cfg.sort_flag ≠ 0 ∧ cfg.sortcol = 0 then [Event.pack true] else [Event.pack false]
  let ev3 := if cfg.sort_flag ≠ 0 then [Event.sort] else []
  (s1, ev1 ++ ev2 ++ ev3)

/-- Lines 114-130: the size check, the reallocation of `buf` to `maxbuf * size_one`
values (`memory->create` with a C++ `int` length), then `write_pack`. -/
def write_buffer (cfg : Config) (s : DumpState) : WriteResult :=
  if s.nme > s.maxbuf then
    if wrapBigint (s.nme * cfg.size_one) > MAXSMALLINT then
      { state := s, events := [Event.errorAll "Too much per-proc info for dump"],
        fatal := some "Too much per-proc info for dump" }
    else
      let n := wrapInt (s.nme * cfg.size_one)
      let s1 := { s with maxbuf := s.nme, buf := n.toNat }
      let r := write_pack cfg s1
      { state := r.1, events := [Event.destroyBuf, Event.createBuf n] ++ r.2, fatal := none }
  else
    let r := write_pack cfg s
    { state := r.1, events := r.2, fatal := none }

/-- Lines 139-155: the scalars written by rank 0 only. -/
def singletonPuts (cfg : Config) (inp : StepInput) (s : DumpState) : List Event :=
  if cfg.me = 0 then
    [Event.Put "ntimestep" (Value.u64 (toSizeT inp.ntimestep)),
     Event.Put "nprocs" (Value.i32 cfg.nprocs),
     Event.Put "boxxlo" (Value.f64 s.boxxlo),
     Event.Put "boxxhi" (Value.f64 s.boxxhi),
     Event.Put "boxylo" (Value.f64 s.boxylo),
     Event.Put "boxyhi" (Value.f64 s.boxyhi),
     Event.Put "boxzlo" (Value.f64 s.boxzlo),
     Event.Put "boxzhi" (Value.f64 s.boxzhi)]
    ++ (if inp.triclinic ≠ 0 then
         [Event.Put "boxxy" (Value.f64 s.boxxy),
          Event.Put "boxxz" (Value.f64 s.boxxz),
          Event.Put "boxyz" (Value.f64 s.boxyz)]
        else [])
  else []

/-- Lines 158-163: the dimension scalars and the payload, written by every rank. -/
def dimensionPuts (cfg : Config) (inp : StepInput) (s : DumpState) : List Event :=
  [Event.Put "natoms" (Value.u64 (toSizeT s.ntotal)),
   Event.Put "ncolumns" (Value.i32 cfg.size_one),
   Event.Put "nme" (Value.u64 (toSizeT (localCount cfg inp))),
   Event.Put "offset" (Value.u64 (toSizeT (atomOffset cfg inp))),
   Event.Put "atoms" (Value.rows s.buf)]

/-- Lines 137-166: begin the step, write the scalars and the payload, end the
step, and close the file in per-step mode. -/
def write_step (cfg : Config) (inp : StepInput) (s : DumpState) : DumpState × List Event :=
  let body := [Event.BeginStep] ++ singletonPuts cfg inp s ++ dimensionPuts cfg inp s
    ++ [Event.EndStep]
  if cfg.multifile ≠ 0 then ({ s with fh := false }, body ++ [Event.Close]) else (s, body)

/-- The method `write()` on rank `cfg.me`. -/
def write (cfg : Config) (inp : StepInput) (s : DumpState) : WriteResult :=
  let s1 := write_box inp s
  let r2 := write_sizes cfg inp s1
  let r3 := write_buffer cfg r2.1
  match r3.fatal with
  | some msg => { state := r3.state, events := r2.2 ++ r3.events, fatal := some msg }
  | none =>
    let r4 := openfile cfg inp r3.state
    match r4.fatal with
    | some msg =>
      { state := r4.state, events := r2.2 ++ r3.events ++ r4.events, fatal := some msg }
    | none =>
      let r5 := write_step cfg inp r4.state
      { state := r5.1, events := r2.2 ++ r3.events ++ r4.events ++ r5.2, fatal := none }

/-! ## Runs of the writer -/

/-- Consecutive calls of `write()`, one per element of `steps`; a fatal error
ends the run at once. -/
def writes (cfg : Config) : List StepInput → DumpState → WriteResult
  | [], s => { state := s, events := [], fatal := none }
  | inp :: rest, s =>
    let r := write cfg inp s
    match r.fatal with
    | some msg => { state := r.state, events := r.events, fatal := some msg }
    | none =>
      let r2 := writes cfg rest r.state
      { state := r2.state, events := r.events ++ r2.events, fatal := r2.fatal }

/-- The life of a writer: construction, the calls of `write()`, and, when no
fatal error ended the run, the destructor. -/
def lifetime (cfg : Config) (steps : List StepInput) : WriteResult :=
  let r := writes cfg steps fresh
  match r.fatal with
  | some msg => { state := r.state, events := r.events, fatal := some msg }
  | none =>
    let d := destructor r.state
    { state := d.1, events := r.events ++ d.2, fatal := none }

/-- The settings of rank `i` of the same dump: only `me` differs between ranks. -/
def onRank (cfg : Config) (i : Nat) : Config := { cfg with me := i }

/-- First row of the selection that `write()` leaves on `varAtoms`. -/
def rowStart (cfg : Config) (inp : StepInput) (s : DumpState) : Nat :=
  (write cfg inp s).state.varAtoms.start.headD 0

/-- Number of rows of the selection that `write()` leaves on `varAtoms`. -/
def rowCount (cfg : Config) (inp : StepInput) (s : DumpState) : Nat :=
  (write cfg inp s).state.varAtoms.cnt.headD 0

/-- Number of rows of the global shape that `write()` leaves on `varAtoms`. -/
def rowTotal (cfg : Config) (inp : StepInput) (s : DumpState) : Nat :=
  (write cfg inp s).state.varAtoms.shape.headD 0

/-- The fields when `write()` reaches the buffer check of line 114. -/
def atBufferCheck (cfg : Config) (inp : StepInput) (s : DumpState) : DumpState :=
  (write_sizes cfg inp (write_box inp s)).1

/-- The fields when `write()` reaches `openfile()` (line 135), after `pack`. -/
def atOpenfile (cfg : Config) (inp : StepInput) (s : DumpState) : DumpState :=
  (write_buffer cfg (atBufferCheck cfg inp s)).state

/-- Ranges of the values a step supplies: every local count is a C++ `int`. -/
def IntCounts (inp : StepInput) : Prop := ∀ c ∈ inp.counts, c < 2 ^ 31

/-- Invariant of the row buffer for a fixed `size_one`: `buf` holds exactly
`maxbuf * size_one` values, and that product passed the size check. -/
def BufInv (cfg : Config) (s : DumpState) : Prop :=
  0 ≤ s.maxbuf ∧ (s.buf : Int) = s.maxbuf * cfg.size_one ∧
  s.maxbuf * cfg.size_one ≤ MAXSMALLINT

/-- Whether a call opens or closes the engine handle. -/
def Event.isFileCall : Event → Bool
  | Event.Open _ _ => true
  | Event.Close => true
  | _ => false

/-- The `Open` and `Close` calls among `evs`, in order. -/
def fileCalls (evs : List Event) : List Event := evs.filter Event.isFileCall

/-- Replay of the `Open` and `Close` calls of `evs` on the single handle slot
`internal->fh`, starting from validity `h`: `none` when `Close` is called on a
handle that is not open or when `Open` overwrites a handle that is still open,
otherwise the validity of the handle after the last call. -/
def handleReplay : Bool → List Event → Option Bool
  | h, [] => some h
  | h, Event.Open _ v :: rest => if h = true then none else handleReplay v rest
  | h, Event.Close :: rest => if h = true then handleReplay false rest else none
  | h, _ :: rest => handleReplay h rest

/-- Whether a call is an engine call that belongs to a step or ends the file:
`BeginStep`, `Put`, `EndStep` or `Close`. -/
def Event.isStepCall : Event → Bool
  | Event.BeginStep => true
  | Event.Put _ _ => true
  | Event.EndStep => true
  | Event.Close => true
  | _ => false

/-- Whether a call is a `Put`. -/
def Event.isPut : Event → Bool
  | Event.Put _ _ => true
  | _ => false

/-- Invariant of the file handle between steps: in per-step mode it is closed;
in single-file mode it is open exactly when `singlefile_opened` is set. -/
def FileInv (cfg : Config) (s : DumpState) : Prop :=
  (cfg.multifile ≠ 0 → s.fh = false) ∧
  (cfg.multifile = 0 → (s.singlefile_opened = 0 → s.fh = false) ∧
    (s.singlefile_opened ≠ 0 → s.fh = true))

/-! ## Scenarios of the specification -/

/-- Settings of rank `me` of a two-process dump of `ncol` columns writing to the
name pattern `dump.*.bp` with pad width 4. -/
def scenarioConfig (me : Nat) (multifile : Int) (ncol : Int) : Config :=
  { me := me, nprocs := 2, multifile := multifile, size_one := ncol, sort_flag := 0,
    sortcol := 0, filename := "dump.*.bp", padflag := 4 }

/-- A step of the scenario "2 processes with local row counts [3, 5]" at time step
`step`, in an orthogonal unit box. -/
def scenarioStep (step : Int) : StepInput :=
  { counts := [3, 5], ntimestep := step, triclinic := 0, boxlo := (0, 0, 0),
    boxhi := (1, 1, 1), boxlo_bound := (0, 0, 0), boxhi_bound := (1, 1, 1),
    xy := 0, xz := 0, yz := 0, openValid := true }

/-- The collective operations that `write()` can issue. -/
inductive Collective where
  | Allreduce
  | Scan
  | errorAll
  | Open
  | BeginStep
  | EndStep
  | Close
  deriving DecidableEq, Repr

/-- The collective operation a call stands for, without its arguments; `none` for
a call that is local to the rank. -/
def Event.collective : Event → Option Collective
  | Event.Allreduce _ => some Collective.Allreduce
  | Event.Scan _ => some Collective.Scan
  | Event.errorAll _ => some Collective.errorAll
  | Event.Open _ _ => some Collective.Open
  | Event.BeginStep => some Collective.BeginStep
  | Event.EndStep => some Collective.EndStep
  | Event.Close => some Collective.Close
  | _ => none

/-- The sequence of collective operations among `evs`. -/
def collectives (evs : List Event) : List Collective := evs.filterMap Event.collective

/-- Names of the scalars that only rank 0 writes (lines 140-153). -/
def singletonNames : List String :=
  ["ntimestep", "nprocs", "boxxlo", "boxxhi", "boxylo", "boxyhi", "boxzlo", "boxzhi",
   "boxxy", "boxxz", "boxyz"]

/-- Protocol stage of a call in the order the specification gives (section 4.4):
20 sizes, 30 buffer capacity, 31 pack, 32 sort, 40 file handle, 50 begin step,
60 singleton scalars, 70 dimension scalars, 80 shape and selection of the array
variable, 90 payload, 100 end step, 110 close. -/
def Event.specStage : Event → Nat
  | Event.count => 20
  | Event.Allreduce _ => 20
  | Event.Scan _ => 20
  | Event.errorAll _ => 30
  | Event.destroyBuf => 30
  | Event.createBuf _ => 30
  | Event.destroyIds => 30
  | Event.createIds _ => 30
  | Event.pack _ => 31
  | Event.sort => 32
  | Event.Open _ _ => 40
  | Event.errorOne _ => 40
  | Event.BeginStep => 50
  | Event.Put name _ =>
    if name ∈ singletonNames then 60 else if name = "atoms" then 90 else 70
  | Event.SetShape _ => 80
  | Event.SetSelection _ _ => 80
  | Event.EndStep => 100
  | Event.Close => 110

/-- Protocol stage of a call in the order of the code: as `Event.specStage`, but
the shape and selection of the array variable (stage 25) follow the sizes
directly. -/
def Event.codeStage : Event → Nat
  | Event.SetShape _ => 25
  | Event.SetSelection _ _ => 25
  | e => e.specStage

/-- The stages of a sequence of calls never go back. -/
def InStageOrder (stage : Event → Nat) (evs : List Event) : Prop :=
  (evs.map stage).Pairwise (fun a b => a ≤ b)

/-! ## `DumpCustomADIOS::init_style`: the file name (dump_custom_adios.cpp, lines 113-121)

A C string is a run of characters in memory that ends at the first `NUL`;
memory is a list of characters, a pointer an index into it. A read outside the
memory has no value (`none`). -/

/-- The character that ends a C string. -/
def NUL : Char := Char.ofNat 0

/-- The C string held at the start of the memory `buf`. -/
def cstring (buf : List Char) : List Char := buf.takeWhile (fun c => c != NUL)

/-- The call `strchr(buf, c)` for a character `c` other than `NUL`: the index of
the first `c` of the C string at `buf`, or `none` (the null pointer). -/
def strchr : List Char → Char → Option Nat
  | [], _ => none
  | x :: rest, c =>
    if x = c then some 0
    else if x = NUL then none
    else (strchr rest c).map (fun i => i + 1)

/-- The loop `while (*ptr) { ptr[0] = ptr[1]; ++ptr; }` of lines 117-120 with
`ptr` at index `p`; at most `fuel` evaluations of the loop condition. -/
def shiftLeft : Nat → List Char → Nat → Option (List Char)
  | 0, _, _ => none
  | fuel + 1, buf, p =>
    match buf[p]? with
    | none => none
    | some c =>
      if c = NUL then some buf
      else
        match buf[p + 1]? with
        | none => none
        | some d => shiftLeft fuel (buf.set p d) (p + 1)

/-- Lines 115-121: `ptr = strchr(filename, '%'); if (ptr) { ... }`. The loop
condition is evaluated at most once per character of the memory. -/
def removePercent (buf : List Char) : Option (List Char) :=
  match strchr buf '%' with
  | none => some buf
  | some p => shiftLeft buf.length buf p

/-! ## `DumpCustomADIOS::init_style`: the column string (dump_custom_adios.cpp, lines 94-107) -/

/-- The loop of lines 99-106 over `items`, the words that
`utils::split_words(columns_default)` returns, from column `icol` on, with the
text assembled so far in `combined`. Reading `keyword_user[icol]` outside the
vector has no value (`none`). -/
def combineColumns : List String → List String → Nat → String → Option String
  | [], _, _, combined => some combined
  | item :: rest, keyword_user, icol, combined =>
    match keyword_user[icol]? with
    | none => none
    | some kw =>
      let combined1 := if combined ≠ "" then combined ++ " " else combined
      let combined2 := if kw ≠ "" then combined1 ++ kw else combined1 ++ item
      combineColumns rest keyword_user (icol + 1) combined2

/-- Lines 96-107: the text that `columns` is set to. -/
def init_style_columns (items keyword_user : List String) : Option String :=
  combineColumns items keyword_user 0 ""

/-- The column entries in the words of the description: one entry per default
word, from column `k` on; the entry is the user keyword of that column when it is
non-empty and the default word otherwise. -/
def columnEntries : List String → List String → Nat → List String
  | [], _, _ => []
  | item :: rest, keyword_user, k =>
    (if keyword_user.getD k "" ≠ "" then keyword_user.getD k "" else item)
      :: columnEntries rest keyword_user (k + 1)

/-- The entries joined by single spaces, in the words of the description. -/
def joinWithSpaces : List String → String
  | [] => ""
  | [a] => a
  | a :: b :: rest => a ++ " " ++ joinWithSpaces (b :: rest)

/-- The entries `es` appended to `combined` the way the loop does it: a space
before an entry exactly when text is there already. -/
def joinOnto (combined : String) (es : List String) : String :=
  es.foldl (fun acc e => (if acc ≠ "" then acc ++ " " else acc) ++ e) combined

/-! ## `DumpCustomADIOS::init_style`: references and schema (dump_custom_adios.cpp, lines 129-212) -/

/-- What the collaborators of `init_style()` know: the IDs for which
`modify->get_compute_by_id` returns a compute, the fixes that
`modify->get_fix_by_id` returns (ID, style, `peratom_freq`), the names that
`input->variable->find` finds, the IDs for which `domain->get_region_by_id`
returns a region, and whether the IO is defined in the configuration file. -/
structure InitEnv where
  computes : List String
  fixes : List (String × String × Int)
  variableNames : List String
  regions : List String
  inConfigFile : Bool
  deriving DecidableEq, Repr

/-- The fields of the dump that `init_style()` reads: the words of
`columns_default`, the user keywords, the referenced IDs, `nevery`, `idregion`
(`none` for the null pointer) and `multiproc`. -/
structure InitFields where
  columns_default : List String
  keyword_user : List String
  id_compute : List String
  id_fix : List String
  id_variable : List String
  nevery : Int
  idregion : Option String
  multiproc : Int
  deriving DecidableEq, Repr

/-- Lines 131-135: the loop over the compute IDs; the result is the message of
the fatal error, if any. -/
def resolveComputes (env : InitEnv) : List String → Option String
  | [] => none
  | id :: rest =>
    if id ∈ env.computes then resolveComputes env rest
    else some ("Could not find dump custom/adios compute ID " ++ id)

/-- Lines 137-143: the loop over the fix IDs. The test `nevery % peratom_freq` is
non-zero exactly when `peratom_freq` does not divide `nevery`, whichever way the
remainder is rounded. -/
def resolveFixes (env : InitEnv) (nevery : Int) : List String → Option String
  | [] => none
  | id :: rest =>
    match env.fixes.find? (fun f => f.1 = id) with
    | none => some ("Could not find dump custom/adios fix ID " ++ id)
    | some f =>
      if nevery % f.2.2 ≠ 0 then
        some ("dump custom/adios and fix " ++ f.2.1 ++ " with ID " ++ id
          ++ " not computed at compatible times")
      else resolveFixes env nevery rest

/-- Lines 145-150: the loop over the variable names. -/
def resolveVariables (env : InitEnv) : List String → Option String
  | [] => none
  | id :: rest =>
    if id ∈ env.variableNames then resolveVariables env rest
    else some "Could not find dump custom/adios variable name"

/-- Lines 152-154: the region check. -/
def resolveRegion (env : InitEnv) : Option String → Option String
  | none => none
  | some id =>
    if id ∈ env.regions then none
    else some ("Region " ++ id ++ " for dump custom/adios does not exist")

/-- Lines 129-154: the first fatal error among the four checks, in program
order. -/
def init_style_resolve (env : InitEnv) (d : InitFields) : Option String :=
  match resolveComputes env d.id_compute with
  | some msg => some msg
  | none =>
    match resolveFixes env d.nevery d.id_fix with
    | some msg => some msg
    | none =>
      match resolveVariables env d.id_variable with
      | some msg => some msg
      | none => resolveRegion env d.idregion

/-- Whether the text `sub` starts at the head of `text`. -/
def startsWith : List Char → List Char → Bool
  | _, [] => true
  | [], _ :: _ => false
  | a :: t, b :: s => a == b && startsWith t s

/-- Whether the text `sub` occurs somewhere in `text`. -/
def containsText : List Char → List Char → Bool
  | [], sub => startsWith [] sub
  | a :: t, sub => startsWith (a :: t) sub || containsText t sub

/-- Settings of a dump that references nothing. -/
def plainFields : InitFields :=
  { columns_default := ["id", "type", "x"], keyword_user := ["", "", ""],
    id_compute := [], id_fix := [], id_variable := [], nevery := 10,
    idregion := none, multiproc := 0 }

/-- Collaborators that know no compute, fix, variable or region. -/
def emptyEnv : InitEnv :=
  { computes := [], fixes := [], variableNames := [], regions := [], inConfigFile := false }
/-- Modelled from the spec: the container engine is an external service; the
specification states its contract for declarations: "Each schema
variable/attribute name is declared exactly once per run; re-declaration is
illegal" and "declaring a name twice ... is a fatal configuration error". The
registry of the `adios2::ADIOS` object of one writer: the IOs declared, the
engine type and parameters set, and the variable and attribute names defined. -/
structure Registry where
  ios : List String
  engineType : String
  parameters : List (String × String)
  variableNames : List String
  attributeNames : List String
  deriving DecidableEq, Repr

/-- A call that `init_style()` makes on the engine to declare the schema. -/
inductive Decl where
  | DeclareIO (name : String)
  | SetEngine (type : String)
  | SetParameters (params : List (String × String))
  | DefineVariable (name : String)
  | DefineAttribute (name : String)
  deriving DecidableEq, Repr

/-- Modelled from the spec: the effect of one declaration call on the registry of
the engine, which is not part of the sources: a name is entered when it is new,
and declaring a name twice is rejected with an error that names it and leaves
the registry as it is. -/
def Registry.apply (r : Registry) : Decl → Except String Registry
  | Decl.DeclareIO name =>
    if name ∈ r.ios then Except.error ("IO " ++ name ++ " declared twice")
    else Except.ok { r with ios := r.ios ++ [name] }
  | Decl.SetEngine type => Except.ok { r with engineType := type }
  | Decl.SetParameters params => Except.ok { r with parameters := params }
  | Decl.DefineVariable name =>
    if name ∈ r.variableNames then Except.error ("variable " ++ name ++ " defined twice")
    else Except.ok { r with variableNames := r.variableNames ++ [name] }
  | Decl.DefineAttribute name =>
    if name ∈ r.attributeNames then Except.error ("attribute " ++ name ++ " defined twice")
    else Except.ok { r with attributeNames := r.attributeNames ++ [name] }

/-- The calls in order, up to the first one that is rejected: the registry
reached and the error, if any. -/
def Registry.applyAll : Registry → List Decl → Registry × Option String
  | r, [] => (r, none)
  | r, d :: rest =>
    match r.apply d with
    | Except.error msg => (r, some msg)
    | Except.ok r1 => Registry.applyAll r1 rest

/-- Registry of the `adios2::ADIOS` object that the constructor creates: nothing
is declared yet. -/
def emptyRegistry : Registry :=
  { ios := [], engineType := "", parameters := [], variableNames := [],
    attributeNames := [] }

/-- Lines 156-211: the declaration calls of `init_style()`, in program order. The
IO name is `ioName = "custom"` (dump_custom_adios.h, line 38); the engine and the
number of substreams are set only when the IO is not defined in the
configuration file. -/
def schemaCalls (env : InitEnv) (d : InitFields) : List Decl :=
  [Decl.DeclareIO "custom"]
  ++ (if env.inConfigFile = false then
        [Decl.SetEngine "BPFile",
         Decl.SetParameters
           [("substreams", toString (if d.multiproc = 0 then 1 else d.multiproc))]]
      else [])
  ++ [Decl.DefineVariable "ntimestep", Decl.DefineVariable "natoms",
      Decl.DefineVariable "nprocs", Decl.DefineVariable "ncolumns",
      Decl.DefineVariable "boxxlo", Decl.DefineVariable "boxxhi",
      Decl.DefineVariable "boxylo", Decl.DefineVariable "boxyhi",
      Decl.DefineVariable "boxzlo", Decl.DefineVariable "boxzhi",
      Decl.DefineVariable "boxxy", Decl.DefineVariable "boxxz",
      Decl.DefineVariable "boxyz",
      Decl.DefineAttribute "triclinic", Decl.DefineAttribute "boundary",
      Decl.DefineAttribute "columns", Decl.DefineAttribute "columnstr",
      Decl.DefineAttribute "boundarystr", Decl.DefineAttribute "LAMMPS/dump_style",
      Decl.DefineAttribute "LAMMPS/version", Decl.DefineAttribute "LAMMPS/num_ver",
      Decl.DefineVariable "nme", Decl.DefineVariable "offset",
      Decl.DefineVariable "atoms"]

/-- The variable and attribute names among declaration calls, in order. -/
def declaredNames : List Decl → List String
  | [] => []
  | Decl.DefineVariable name :: rest => name :: declaredNames rest
  | Decl.DefineAttribute name :: rest => name :: declaredNames rest
  | _ :: rest => declaredNames rest

/-- The state that `init_style()` works on: the text of `columns`, the memory of
`filename` (each `none` once an access outside its storage has happened), and the
registry of the engine. -/
structure InitState where
  columns : Option String
  filename : Option (List Char)
  registry : Registry
  deriving DecidableEq, Repr

/-- Result of `init_style()`: the state afterwards and the message of the fatal
error that ended the run, if any. -/
structure InitResult where
  state : InitState
  fatal : Option String
  deriving DecidableEq, Repr

/-- The method `init_style()` (lines 92-212): column string, file name,
references, then the schema. The boundary string and the values of the
attributes are not modelled; of the schema only the names matter here. -/
def init_style (env : InitEnv) (d : InitFields) (s : InitState) : InitResult :=
  let s1 := { s with columns := init_style_columns d.columns_default d.keyword_user,
                     filename := s.filename.bind removePercent }
  match init_style_resolve env d with
  | some msg => { state := s1, fatal := some msg }
  | none =>
    let r := s1.registry.applyAll (schemaCalls env d)
    { state := { s1 with registry := r.1 }, fatal := r.2 }

/-- State of a freshly constructed writer with the file name `name`. -/
def freshInit (name : String) : InitState :=
  { columns := none, filename := some (name.data ++ [NUL]), registry := emptyRegistry }

/-! # Properties -/

/-! ## Arithmetic of the machine integers -/

theorem wrapBigint_of_range (x : Int) (h1 : -(2 ^ 63) ≤ x) (h2 : x < 2 ^ 63) :
    wrapBigint x = x := by
  unfold wrapBigint
  rw [Int.emod_eq_of_lt (by omega) (by omega)]
  omega

theorem wrapInt_of_range (x : Int) (h1 : -(2 ^ 31) ≤ x) (h2 : x < 2 ^ 31) :
    wrapInt x = x := by
  unfold wrapInt
  rw [Int.emod_eq_of_lt (by omega) (by omega)]
  omega

theorem toSizeT_of_range (x : Int) (h1 : 0 ≤ x) (h2 : x < 2 ^ 64) :
    toSizeT x = x.toNat := by
  unfold toSizeT
  rw [Int.emod_eq_of_lt h1 h2]

theorem toSizeT_natCast (n : Nat) (h : n < 2 ^ 64) : toSizeT (n : Int) = n := by
  rw [toSizeT_of_range _ (by omega) (by omega)]
  simp

/-- A list of `int`-sized counts sums to at most `length * (2^31 - 1)`. -/
theorem sum_le_of_int_counts (l : List Nat) (h : ∀ c ∈ l, c < 2 ^ 31) :
    l.sum ≤ l.length * (2 ^ 31 - 1) := by
  induction l with
  | nil => simp
  | cons a t ih =>
    have ha : a < 2 ^ 31 := h a (List.mem_cons_self a t)
    have ht := ih (fun c hc => h c (List.mem_cons_of_mem a hc))
    simp only [List.sum_cons, List.length_cons]
    rw [Nat.add_mul]
    omega

/-- With fewer than `2^31` ranks of `int`-sized counts the sum is below `2^62`. -/
theorem sum_lt_of_int_counts (l : List Nat) (h : ∀ c ∈ l, c < 2 ^ 31)
    (hlen : l.length < 2 ^ 31) : l.sum < 2 ^ 62 := by
  have h1 := sum_le_of_int_counts l h
  have h2 : l.length * (2 ^ 31 - 1) ≤ 2 ^ 31 * (2 ^ 31 - 1) :=
    Nat.mul_le_mul_right _ (Nat.le_of_lt hlen)
  have h3 : (2 : Nat) ^ 31 * (2 ^ 31 - 1) < 2 ^ 62 := by norm_num
  omega

theorem sum_take_le (l : List Nat) (k : Nat) : (l.take k).sum ≤ l.sum := by
  induction l generalizing k with
  | nil => simp
  | cons a t ih =>
    cases k with
    | zero => simp
    | succ k =>
      simp only [List.take_succ_cons, List.sum_cons]
      have := ih k
      omega

theorem sum_take_succ (l : List Nat) (k : Nat) :
    (l.take (k + 1)).sum = (l.take k).sum + l.getD k 0 := by
  induction l generalizing k with
  | nil => simp
  | cons a t ih =>
    cases k with
    | zero => simp
    | succ k =>
      simp only [List.take_succ_cons, List.sum_cons, List.getD_cons_succ]
      rw [ih k]
      omega

theorem sum_map_natCast (l : List Nat) :
    (l.map (fun (c : Nat) => (c : Int))).sum = ((l.sum : Nat) : Int) := by
  induction l with
  | nil => rfl
  | cons a t ih =>
    simp only [List.map_cons, List.sum_cons, Nat.cast_add]
    rw [ih]

theorem contributions_sum (inp : StepInput) :
    (contributions inp).sum = ((inp.counts.sum : Nat) : Int) :=
  sum_map_natCast inp.counts

theorem contributions_take_sum (inp : StepInput) (k : Nat) :
    ((contributions inp).take k).sum = (((inp.counts.take k).sum : Nat) : Int) := by
  unfold contributions
  rw [← List.map_take]
  exact sum_map_natCast _

/-- Without overflow the reduction is the mathematical sum. -/
theorem globalTotal_eq (inp : StepInput) (hc : ∀ c ∈ inp.counts, c < 2 ^ 31)
    (hlen : inp.counts.length < 2 ^ 31) :
    globalTotal inp = ((inp.counts.sum : Nat) : Int) := by
  unfold globalTotal MPI_Allreduce_SUM
  rw [contributions_sum]
  have := sum_lt_of_int_counts _ hc hlen
  exact wrapBigint_of_range _ (by omega) (by omega)

/-- Without overflow the offset is the exclusive running total. -/
theorem atomOffset_eq (cfg : Config) (inp : StepInput) (hc : ∀ c ∈ inp.counts, c < 2 ^ 31)
    (hlen : inp.counts.length < 2 ^ 31) :
    atomOffset cfg inp = (((inp.counts.take cfg.me).sum : Nat) : Int) := by
  unfold atomOffset MPI_Scan_SUM localCount
  rw [contributions_take_sum]
  have h1 := sum_lt_of_int_counts _ hc hlen
  have h2 := sum_take_le inp.counts (cfg.me + 1)
  have h3 := sum_take_succ inp.counts cfg.me
  rw [wrapBigint_of_range (((inp.counts.take (cfg.me + 1)).sum : Nat) : Int)
    (by omega) (by omega)]
  rw [wrapBigint_of_range _ (by omega) (by omega)]
  omega

/-! ## Fields that the later stages of `write()` leave alone -/

theorem write_pack_frame (cfg : Config) (s : DumpState) :
    (write_pack cfg s).1.ntotal = s.ntotal ∧ (write_pack cfg s).1.nme = s.nme ∧
    (write_pack cfg s).1.varAtoms = s.varAtoms ∧ (write_pack cfg s).1.maxbuf = s.maxbuf ∧
    (write_pack cfg s).1.buf = s.buf ∧ (write_pack cfg s).1.fh = s.fh ∧
    (write_pack cfg s).1.singlefile_opened = s.singlefile_opened := by
  unfold write_pack
  dsimp only
  split_ifs <;> simp

theorem write_buffer_frame (cfg : Config) (s : DumpState) :
    (write_buffer cfg s).state.ntotal = s.ntotal ∧ (write_buffer cfg s).state.nme = s.nme ∧
    (write_buffer cfg s).state.varAtoms = s.varAtoms ∧
    (write_buffer cfg s).state.fh = s.fh ∧
    (write_buffer cfg s).state.singlefile_opened = s.singlefile_opened := by
  unfold write_buffer
  dsimp only
  split_ifs <;> simp [write_pack_frame]

theorem openfile_frame (cfg : Config) (inp : StepInput) (s : DumpState) :
    (openfile cfg inp s).state.ntotal = s.ntotal ∧ (openfile cfg inp s).state.nme = s.nme ∧
    (openfile cfg inp s).state.varAtoms = s.varAtoms ∧
    (openfile cfg inp s).state.maxbuf = s.maxbuf ∧ (openfile cfg inp s).state.buf = s.buf := by
  unfold openfile
  dsimp only
  split_ifs <;> simp

theorem write_step_frame (cfg : Config) (inp : StepInput) (s : DumpState) :
    (write_step cfg inp s).1.ntotal = s.ntotal ∧ (write_step cfg inp s).1.nme = s.nme ∧
    (write_step cfg inp s).1.varAtoms = s.varAtoms ∧
    (write_step cfg inp s).1.maxbuf = s.maxbuf ∧ (write_step cfg inp s).1.buf = s.buf := by
  unfold write_step
  dsimp only
  split_ifs <;> simp

theorem write_state_sizes (cfg : Config) (inp : StepInput) (s : DumpState) :
    (write cfg inp s).state.ntotal = globalTotal inp ∧
    (write cfg inp s).state.nme = localCount cfg inp ∧
    (write cfg inp s).state.varAtoms =
      { shape := [toSizeT (globalTotal inp), toSizeT cfg.size_one],
        start := [toSizeT (atomOffset cfg inp), 0],
        cnt := [toSizeT (localCount cfg inp), toSizeT cfg.size_one] } := by
  unfold write
  simp only
  split
  · simp [write_buffer_frame, write_sizes]
  · split
    · simp [openfile_frame, write_buffer_frame, write_sizes]
    · simp [write_step_frame, openfile_frame, write_buffer_frame, write_sizes]

/-- The first five calls of every `write()`. -/
theorem write_events_head (cfg : Config) (inp : StepInput) (s : DumpState) :
    ∃ rest, (write cfg inp s).events =
      [Event.count, Event.Allreduce (localCount cfg inp), Event.Scan (localCount cfg inp),
       Event.SetShape [toSizeT (globalTotal inp), toSizeT cfg.size_one],
       Event.SetSelection [toSizeT (atomOffset cfg inp), 0]
         [toSizeT (localCount cfg inp), toSizeT cfg.size_one]] ++ rest := by
  unfold write
  simp only
  split
  · exact ⟨_, by simp [write_sizes]; rfl⟩
  · split
    · exact ⟨_, by simp [write_sizes]; rfl⟩
    · exact ⟨_, by simp [write_sizes]; rfl⟩

/-! ## Running totals of the local counts -/

theorem sum_take_mono (l : List Nat) {k m : Nat} (h : k ≤ m) :
    (l.take k).sum ≤ (l.take m).sum := by
  have h1 : l.take k = (l.take m).take k := by
    rw [List.take_take, Nat.min_eq_left h]
  rw [h1]
  exact sum_take_le _ _

theorem sum_take_length (l : List Nat) : (l.take l.length).sum = l.sum := by
  rw [List.take_length]

/-- Every index below the sum of a list falls into the block of some position. -/
theorem exists_block (l : List Nat) (r : Nat) (h : r < l.sum) :
    ∃ i, i < l.length ∧ (l.take i).sum ≤ r ∧ r < (l.take i).sum + l.getD i 0 := by
  induction l generalizing r with
  | nil => simp at h
  | cons a t ih =>
    by_cases hr : r < a
    · exact ⟨0, by simp, by simp, by simpa using hr⟩
    · have h2 : r - a < t.sum := by
        simp only [List.sum_cons] at h
        omega
      obtain ⟨i, hi, hlo, hhi⟩ := ih (r - a) h2
      refine ⟨i + 1, by simpa using hi, ?_, ?_⟩
      · simp only [List.take_succ_cons, List.sum_cons]
        omega
      · simp only [List.take_succ_cons, List.sum_cons, List.getD_cons_succ]
        omega

/-- Blocks of different positions are ordered, hence disjoint. -/
theorem block_ordered (l : List Nat) {i j : Nat} (h : i < j) :
    (l.take i).sum + l.getD i 0 ≤ (l.take j).sum := by
  rw [← sum_take_succ]
  exact sum_take_mono l h

theorem rowStart_eq (cfg : Config) (inp : StepInput) (s : DumpState)
    (hc : ∀ c ∈ inp.counts, c < 2 ^ 31) (hlen : inp.counts.length < 2 ^ 31) :
    rowStart cfg inp s = (inp.counts.take cfg.me).sum := by
  unfold rowStart
  rw [(write_state_sizes cfg inp s).2.2, atomOffset_eq cfg inp hc hlen]
  have h1 := sum_lt_of_int_counts _ hc hlen
  have h2 := sum_take_le inp.counts cfg.me
  simp only [List.headD_cons]
  exact toSizeT_natCast _ (by omega)

theorem rowCount_eq (cfg : Config) (inp : StepInput) (s : DumpState)
    (hc : ∀ c ∈ inp.counts, c < 2 ^ 31) :
    rowCount cfg inp s = inp.counts.getD cfg.me 0 := by
  unfold rowCount
  rw [(write_state_sizes cfg inp s).2.2]
  simp only [List.headD_cons, localCount]
  apply toSizeT_natCast
  by_cases h : cfg.me < inp.counts.length
  · have := hc (inp.counts.get ⟨cfg.me, h⟩) (List.get_mem _ _ _)
    rw [List.getD_eq_getElem _ _ h]
    simp only [List.get_eq_getElem] at this
    omega
  · rw [List.getD_eq_default _ _ (by omega)]
    norm_num

theorem rowTotal_eq (cfg : Config) (inp : StepInput) (s : DumpState)
    (hc : ∀ c ∈ inp.counts, c < 2 ^ 31) (hlen : inp.counts.length < 2 ^ 31) :
    rowTotal cfg inp s = inp.counts.sum := by
  unfold rowTotal
  rw [(write_state_sizes cfg inp s).2.2, globalTotal_eq inp hc hlen]
  have h1 := sum_lt_of_int_counts _ hc hlen
  simp only [List.headD_cons]
  exact toSizeT_natCast _ (by omega)

/-! ## C1 - C3: global total, exclusive offsets, shape and selection -/

/-- C1: on every rank `cfg.me` of a world of `P >= 1` processes whose local row
counts are C++ `int` values (`P` itself being an `int`), `write()` computes
`ntotal` as the sum of all local counts - a value that does not depend on the
rank - and `atomOffset` as the sum of the counts of the ranks before it (0 on
rank 0); that offset is the start row of the selection it sets. -/
theorem write_global_total_and_offset (cfg : Config) (inp : StepInput) (s : DumpState)
    (hme : cfg.me < inp.counts.length)
    (hlen : inp.counts.length < 2 ^ 31)
    (hc : ∀ c ∈ inp.counts, c < 2 ^ 31) :
    (write cfg inp s).state.ntotal = ((inp.counts.sum : Nat) : Int) ∧
    atomOffset cfg inp = (((inp.counts.take cfg.me).sum : Nat) : Int) ∧
    (cfg.me = 0 → atomOffset cfg inp = 0) ∧
    atomOffset cfg inp + ((inp.counts.get ⟨cfg.me, hme⟩ : Nat) : Int)
      = MPI_Scan_SUM (contributions inp) cfg.me ∧
    (write cfg inp s).state.varAtoms.start = [(inp.counts.take cfg.me).sum, 0] := by
  have hoff := atomOffset_eq cfg inp hc hlen
  have hsum := sum_lt_of_int_counts _ hc hlen
  have htake := sum_take_le inp.counts cfg.me
  refine ⟨?_, hoff, ?_, ?_, ?_⟩
  · rw [(write_state_sizes cfg inp s).1]
    exact globalTotal_eq inp hc hlen
  · intro h0
    rw [hoff, h0]
    simp
  · have h2 := sum_take_le inp.counts (cfg.me + 1)
    have h3 := sum_take_succ inp.counts cfg.me
    rw [List.getD_eq_getElem _ _ hme] at h3
    unfold MPI_Scan_SUM
    rw [contributions_take_sum, wrapBigint_of_range _ (by omega) (by omega), hoff, h3]
    simp
  · rw [(write_state_sizes cfg inp s).2.2, hoff]
    simp only
    rw [toSizeT_natCast _ (by omega)]

/-- Witness of C1: two ranks with local counts 3 and 5, seen from rank 1. -/
theorem write_global_total_and_offset_witness :
    (write { me := 1, nprocs := 2, multifile := 0, size_one := 4, sort_flag := 0,
             sortcol := 0, filename := "dump.bp", padflag := 0 }
       { counts := [3, 5], ntimestep := 0, triclinic := 0, boxlo := (0, 0, 0),
         boxhi := (1, 1, 1), boxlo_bound := (0, 0, 0), boxhi_bound := (1, 1, 1),
         xy := 0, xz := 0, yz := 0, openValid := true } fresh).state.ntotal = 8 ∧
    atomOffset { me := 1, nprocs := 2, multifile := 0, size_one := 4, sort_flag := 0,
                 sortcol := 0, filename := "dump.bp", padflag := 0 }
       { counts := [3, 5], ntimestep := 0, triclinic := 0, boxlo := (0, 0, 0),
         boxhi := (1, 1, 1), boxlo_bound := (0, 0, 0), boxhi_bound := (1, 1, 1),
         xy := 0, xz := 0, yz := 0, openValid := true } = 3 := by
  have h := write_global_total_and_offset
    { me := 1, nprocs := 2, multifile := 0, size_one := 4, sort_flag := 0,
      sortcol := 0, filename := "dump.bp", padflag := 0 }
    { counts := [3, 5], ntimestep := 0, triclinic := 0, boxlo := (0, 0, 0),
      boxhi := (1, 1, 1), boxlo_bound := (0, 0, 0), boxhi_bound := (1, 1, 1),
      xy := 0, xz := 0, yz := 0, openValid := true } fresh
    (by decide) (by decide) (by decide)
  exact ⟨h.1, h.2.1⟩

/-- C2: for any world of ranks `0..P-1` (each with its own writer state `st i`)
and any `int`-sized local counts, the row ranges
`[rowStart_i, rowStart_i + rowCount_i)` selected by `write()` tile `[0, ntotal)`:
every rank declares the same global row count, the sum of the counts; each range
lies inside `[0, ntotal)`; the ranges follow one another in rank order without
gap (the first starts at 0, each next one starts where the previous ends, the
last ends at `ntotal`), so ranges of different ranks are disjoint; and every
global row index belongs to the range of exactly one rank. -/
theorem write_row_ranges_partition (cfg : Config) (inp : StepInput) (st : Nat → DumpState)
    (hlen : inp.counts.length < 2 ^ 31)
    (hc : ∀ c ∈ inp.counts, c < 2 ^ 31) :
    (∀ i, i < inp.counts.length →
        rowTotal (onRank cfg i) inp (st i) = inp.counts.sum ∧
        rowCount (onRank cfg i) inp (st i) = inp.counts.getD i 0 ∧
        rowStart (onRank cfg i) inp (st i) + rowCount (onRank cfg i) inp (st i)
          ≤ inp.counts.sum) ∧
    rowStart (onRank cfg 0) inp (st 0) = 0 ∧
    (∀ i, i < inp.counts.length →
        rowStart (onRank cfg i) inp (st i) + rowCount (onRank cfg i) inp (st i)
          = if i + 1 < inp.counts.length then rowStart (onRank cfg (i + 1)) inp (st (i + 1))
            else inp.counts.sum) ∧
    (∀ i j, i < j → j < inp.counts.length →
        rowStart (onRank cfg i) inp (st i) + rowCount (onRank cfg i) inp (st i)
          ≤ rowStart (onRank cfg j) inp (st j)) ∧
    (∀ r, r < inp.counts.sum →
        ∃! i, i < inp.counts.length ∧
          rowStart (onRank cfg i) inp (st i) ≤ r ∧
          r < rowStart (onRank cfg i) inp (st i) + rowCount (onRank cfg i) inp (st i)) := by
  have hs : ∀ i, rowStart (onRank cfg i) inp (st i) = (inp.counts.take i).sum :=
    fun i => rowStart_eq (onRank cfg i) inp (st i) hc hlen
  have hn : ∀ i, rowCount (onRank cfg i) inp (st i) = inp.counts.getD i 0 :=
    fun i => rowCount_eq (onRank cfg i) inp (st i) hc
  have ht : ∀ i, rowTotal (onRank cfg i) inp (st i) = inp.counts.sum :=
    fun i => rowTotal_eq (onRank cfg i) inp (st i) hc hlen
  refine ⟨?_, ?_, ?_, ?_, ?_⟩
  · intro i _
    refine ⟨ht i, hn i, ?_⟩
    rw [hs, hn, ← sum_take_succ]
    exact sum_take_le _ _
  · rw [hs]
    simp
  · intro i hi
    rw [hs, hn, ← sum_take_succ]
    split
    · rw [hs]
    · have : inp.counts.length ≤ i + 1 := by omega
      rw [List.take_of_length_le this]
  · intro i j hij _
    rw [hs, hn, hs]
    exact block_ordered _ hij
  · intro r hr
    obtain ⟨i, hi, hlo, hhi⟩ := exists_block inp.counts r hr
    refine ⟨i, ⟨hi, by rw [hs]; exact hlo, by rw [hs, hn]; exact hhi⟩, ?_⟩
    rintro j ⟨_, hjlo, hjhi⟩
    rw [hs] at hjlo
    rw [hs, hn] at hjhi
    rcases Nat.lt_trichotomy j i with h | h | h
    · have := block_ordered inp.counts h
      omega
    · exact h
    · have := block_ordered inp.counts h
      omega

/-- Witness of C2: the ranges of the two ranks with local counts 3 and 5. -/
theorem write_row_ranges_partition_witness :
    rowStart (onRank (scenarioConfig 0 1 4) 0) (scenarioStep 100) fresh = 0 ∧
    (∀ r, r < (scenarioStep 100).counts.sum →
        ∃! i, i < (scenarioStep 100).counts.length ∧
          rowStart (onRank (scenarioConfig 0 1 4) i) (scenarioStep 100) fresh ≤ r ∧
          r < rowStart (onRank (scenarioConfig 0 1 4) i) (scenarioStep 100) fresh
            + rowCount (onRank (scenarioConfig 0 1 4) i) (scenarioStep 100) fresh) :=
  have h := write_row_ranges_partition (scenarioConfig 0 1 4) (scenarioStep 100)
    (fun _ => fresh) (by decide) (by decide)
  ⟨h.2.1, h.2.2.2.2⟩

/-- C3: every call of `write()`, from any previous state of the writer and
whether or not it later ends in a fatal error, calls `SetShape` with
`{ntotal, size_one}` and then `SetSelection` with start `{atomOffset, 0}` and
count `{nme, size_one}` (`ntotal` the sum of the `int`-sized local counts,
`atomOffset` the sum of the counts of the lower ranks), and leaves `varAtoms`
with that shape and selection. -/
theorem write_sets_shape_and_selection (cfg : Config) (inp : StepInput) (s : DumpState)
    (hme : cfg.me < inp.counts.length)
    (hlen : inp.counts.length < 2 ^ 31)
    (hc : ∀ c ∈ inp.counts, c < 2 ^ 31)
    (hcol : 0 ≤ cfg.size_one) (hcol2 : cfg.size_one < 2 ^ 31) :
    (∃ rest, (write cfg inp s).events =
      [Event.count, Event.Allreduce (inp.counts.get ⟨cfg.me, hme⟩),
       Event.Scan (inp.counts.get ⟨cfg.me, hme⟩),
       Event.SetShape [inp.counts.sum, cfg.size_one.toNat],
       Event.SetSelection [(inp.counts.take cfg.me).sum, 0]
         [inp.counts.get ⟨cfg.me, hme⟩, cfg.size_one.toNat]] ++ rest) ∧
    (write cfg inp s).state.varAtoms =
      { shape := [inp.counts.sum, cfg.size_one.toNat],
        start := [(inp.counts.take cfg.me).sum, 0],
        cnt := [inp.counts.get ⟨cfg.me, hme⟩, cfg.size_one.toNat] } := by
  have hsum := sum_lt_of_int_counts _ hc hlen
  have htake := sum_take_le inp.counts cfg.me
  have hget : inp.counts.get ⟨cfg.me, hme⟩ < 2 ^ 31 := hc _ (List.get_mem _ _ _)
  have h1 : toSizeT (globalTotal inp) = inp.counts.sum := by
    rw [globalTotal_eq inp hc hlen]
    exact toSizeT_natCast _ (by omega)
  have h2 : toSizeT (atomOffset cfg inp) = (inp.counts.take cfg.me).sum := by
    rw [atomOffset_eq cfg inp hc hlen]
    exact toSizeT_natCast _ (by omega)
  have h3 : localCount cfg inp = ((inp.counts.get ⟨cfg.me, hme⟩ : Nat) : Int) := by
    unfold localCount
    rw [List.getD_eq_getElem _ _ hme]
    rfl
  have h4 : toSizeT (localCount cfg inp) = inp.counts.get ⟨cfg.me, hme⟩ := by
    rw [h3]
    exact toSizeT_natCast _ (by omega)
  have h5 : toSizeT cfg.size_one = cfg.size_one.toNat :=
    toSizeT_of_range _ hcol (by omega)
  constructor
  · obtain ⟨rest, hrest⟩ := write_events_head cfg inp s
    refine ⟨rest, ?_⟩
    rw [hrest, h1, h2, h4, h5, h3]
  · rw [(write_state_sizes cfg inp s).2.2, h1, h2, h4, h5]

/-- Witness of C3: the spec's scenario, 2 processes with local counts [3, 5] and
7 columns: both ranks set shape {8, 7}; rank 0 selects start (0,0) count (3,7),
rank 1 selects start (3,0) count (5,7). -/
theorem write_sets_shape_and_selection_witness :
    (write (scenarioConfig 0 0 7) (scenarioStep 1) fresh).state.varAtoms =
      { shape := [8, 7], start := [0, 0], cnt := [3, 7] } ∧
    (write (scenarioConfig 1 0 7) (scenarioStep 1) fresh).state.varAtoms =
      { shape := [8, 7], start := [3, 0], cnt := [5, 7] } :=
  ⟨(write_sets_shape_and_selection (scenarioConfig 0 0 7) (scenarioStep 1) fresh
      (by decide) (by decide) (by decide) (by decide) (by decide)).2,
   (write_sets_shape_and_selection (scenarioConfig 1 0 7) (scenarioStep 1) fresh
      (by decide) (by decide) (by decide) (by decide) (by decide)).2⟩

/-! ## The stages of `write()` -/

theorem atBufferCheck_fields (cfg : Config) (inp : StepInput) (s : DumpState) :
    (atBufferCheck cfg inp s).nme = localCount cfg inp ∧
    (atBufferCheck cfg inp s).maxbuf = s.maxbuf ∧
    (atBufferCheck cfg inp s).buf = s.buf ∧
    (atBufferCheck cfg inp s).fh = s.fh ∧
    (atBufferCheck cfg inp s).singlefile_opened = s.singlefile_opened := by
  unfold atBufferCheck write_sizes write_box
  dsimp only
  split_ifs <;> simp

/-- The calls of one `write()`, stage by stage. -/
theorem write_events_eq (cfg : Config) (inp : StepInput) (s : DumpState) :
    (write cfg inp s).events =
      (write_sizes cfg inp (write_box inp s)).2
        ++ (write_buffer cfg (atBufferCheck cfg inp s)).events
        ++ (match (write_buffer cfg (atBufferCheck cfg inp s)).fatal with
            | some _ => []
            | none =>
              (openfile cfg inp (atOpenfile cfg inp s)).events
                ++ (match (openfile cfg inp (atOpenfile cfg inp s)).fatal with
                    | some _ => []
                    | none => (write_step cfg inp (openfile cfg inp (atOpenfile cfg inp s)).state).2)) := by
  unfold write atOpenfile atBufferCheck
  dsimp only
  split
  · simp
  · split <;> simp

/-- The fatal error of one `write()`, stage by stage. -/
theorem write_fatal_eq (cfg : Config) (inp : StepInput) (s : DumpState) :
    (write cfg inp s).fatal =
      (match (write_buffer cfg (atBufferCheck cfg inp s)).fatal with
       | some msg => some msg
       | none => (openfile cfg inp (atOpenfile cfg inp s)).fatal) := by
  unfold write atOpenfile atBufferCheck
  dsimp only
  split
  · simp
  · split <;> simp_all

/-- The buffer fields after `write()` are those left by the buffer stage. -/
theorem write_buffer_fields (cfg : Config) (inp : StepInput) (s : DumpState) :
    (write cfg inp s).state.maxbuf = (atOpenfile cfg inp s).maxbuf ∧
    (write cfg inp s).state.buf = (atOpenfile cfg inp s).buf := by
  unfold write atOpenfile atBufferCheck
  dsimp only
  split
  · simp
  · split
    · simp [openfile_frame]
    · simp [write_step_frame, openfile_frame]

/-- What the buffer stage does to `maxbuf` and `buf`. -/
theorem write_buffer_cases (cfg : Config) (s : DumpState) :
    (s.nme > s.maxbuf ∧ wrapBigint (s.nme * cfg.size_one) > MAXSMALLINT ∧
      (write_buffer cfg s).fatal = some "Too much per-proc info for dump" ∧
      (write_buffer cfg s).events = [Event.errorAll "Too much per-proc info for dump"] ∧
      (write_buffer cfg s).state = s) ∨
    (s.nme > s.maxbuf ∧ ¬ wrapBigint (s.nme * cfg.size_one) > MAXSMALLINT ∧
      (write_buffer cfg s).fatal = none ∧
      (write_buffer cfg s).state.maxbuf = s.nme ∧
      (write_buffer cfg s).state.buf = (wrapInt (s.nme * cfg.size_one)).toNat ∧
      ∃ rest, (write_buffer cfg s).events =
        [Event.destroyBuf, Event.createBuf (wrapInt (s.nme * cfg.size_one))] ++ rest ∧
        rest = (write_pack cfg
          { s with maxbuf := s.nme, buf := (wrapInt (s.nme * cfg.size_one)).toNat }).2) ∨
    (¬ s.nme > s.maxbuf ∧
      (write_buffer cfg s).fatal = none ∧
      (write_buffer cfg s).state.maxbuf = s.maxbuf ∧
      (write_buffer cfg s).state.buf = s.buf ∧
      (write_buffer cfg s).events = (write_pack cfg s).2) := by
  unfold write_buffer
  dsimp only
  split_ifs with h1 h2
  · left
    exact ⟨h1, h2, rfl, rfl, rfl⟩
  · right; left
    refine ⟨h1, h2, rfl, ?_, ?_, _, rfl, rfl⟩
    · simp [write_pack_frame]
    · simp [write_pack_frame]
  · right; right
    refine ⟨h1, rfl, ?_, ?_, rfl⟩
    · simp [write_pack_frame]
    · simp [write_pack_frame]

/-- The calls of `write_pack` are memory and packing calls only. -/
theorem write_pack_events (cfg : Config) (s : DumpState) :
    ∀ e ∈ (write_pack cfg s).2,
      e = Event.destroyIds ∨ e = Event.createIds s.nme ∨ e = Event.pack true ∨
      e = Event.pack false ∨ e = Event.sort := by
  unfold write_pack
  dsimp only
  intro e he
  split_ifs at he <;> simp at he <;> aesop

theorem write_sizes_events (cfg : Config) (inp : StepInput) (s : DumpState) :
    ∀ e ∈ (write_sizes cfg inp s).2,
      e = Event.count ∨ (∃ b, e = Event.Allreduce b) ∨ (∃ b, e = Event.Scan b) ∨
      (∃ sh, e = Event.SetShape sh) ∨ (∃ st c, e = Event.SetSelection st c) := by
  unfold write_sizes
  dsimp only
  intro e he
  simp at he
  rcases he with h | h | h | h | h <;> simp [h]

theorem openfile_events (cfg : Config) (inp : StepInput) (s : DumpState) :
    ∀ e ∈ (openfile cfg inp s).events,
      (∃ n v, e = Event.Open n v) ∨ (∃ m, e = Event.errorOne m) := by
  unfold openfile
  dsimp only
  intro e he
  split_ifs at he <;> simp at he <;> aesop

theorem singletonPuts_events (cfg : Config) (inp : StepInput) (s : DumpState) :
    ∀ e ∈ singletonPuts cfg inp s, ∃ n v, e = Event.Put n v := by
  unfold singletonPuts
  intro e he
  split_ifs at he <;> simp at he <;> aesop

theorem dimensionPuts_events (cfg : Config) (inp : StepInput) (s : DumpState) :
    ∀ e ∈ dimensionPuts cfg inp s, ∃ n v, e = Event.Put n v := by
  unfold dimensionPuts
  intro e he
  simp at he
  aesop

theorem write_step_events (cfg : Config) (inp : StepInput) (s : DumpState) :
    ∀ e ∈ (write_step cfg inp s).2,
      e = Event.BeginStep ∨ (∃ n v, e = Event.Put n v) ∨ e = Event.EndStep ∨
      e = Event.Close := by
  unfold write_step
  dsimp only
  intro e he
  have h1 := singletonPuts_events cfg inp s e
  have h2 := dimensionPuts_events cfg inp s e
  split_ifs at he <;> simp at he <;> aesop

/-- Only the buffer stage of `write()` can release or allocate `buf`. -/
theorem write_realloc_mem (cfg : Config) (inp : StepInput) (s : DumpState) (e : Event)
    (he : e ∈ (write cfg inp s).events) (hr : e = Event.destroyBuf ∨ ∃ n, e = Event.createBuf n) :
    e ∈ (write_buffer cfg (atBufferCheck cfg inp s)).events := by
  rw [write_events_eq] at he
  simp only [List.mem_append] at he
  rcases he with (he | he) | he
  · have := write_sizes_events cfg inp _ e he
    aesop
  · exact he
  · exfalso
    split at he
    · simp at he
    · simp only [List.mem_append] at he
      rcases he with he | he
      · have := openfile_events cfg inp _ e he
        aesop
      · split at he
        · simp at he
        · have := write_step_events cfg inp _ e he
          aesop

/-! ## C4, C5: the row buffer -/

theorem write_maxbuf_mono (cfg : Config) (inp : StepInput) (s : DumpState) :
    s.maxbuf ≤ (write cfg inp s).state.maxbuf := by
  rw [(write_buffer_fields cfg inp s).1]
  unfold atOpenfile
  have hf := atBufferCheck_fields cfg inp s
  rcases write_buffer_cases cfg (atBufferCheck cfg inp s) with h | h | h
  · rw [h.2.2.2.2, hf.2.1]
  · rw [h.2.2.2.1]
    have := h.1
    omega
  · rw [h.2.2.1, hf.2.1]

theorem writes_maxbuf_mono (cfg : Config) (steps : List StepInput) (s : DumpState) :
    s.maxbuf ≤ (writes cfg steps s).state.maxbuf := by
  induction steps generalizing s with
  | nil => simp [writes]
  | cons inp rest ih =>
    unfold writes
    dsimp only
    split
    · exact write_maxbuf_mono cfg inp s
    · exact le_trans (write_maxbuf_mono cfg inp s) (ih _)

/-- C4: the capacity `maxbuf` never decreases - not over one `write()`, and not
over any sequence of `write()` calls with arbitrary local counts, from any
state - and a call whose local count `nme` is at most the current `maxbuf`
leaves `maxbuf` and `buf` unchanged and issues neither `memory->destroy(buf)`
nor `memory->create(buf, ...)`. -/
theorem maxbuf_never_decreases (cfg : Config) (inp : StepInput) (steps : List StepInput)
    (s : DumpState) :
    s.maxbuf ≤ (write cfg inp s).state.maxbuf ∧
    s.maxbuf ≤ (writes cfg steps s).state.maxbuf ∧
    (localCount cfg inp ≤ s.maxbuf →
      (write cfg inp s).state.maxbuf = s.maxbuf ∧
      (write cfg inp s).state.buf = s.buf ∧
      Event.destroyBuf ∉ (write cfg inp s).events ∧
      ∀ n, Event.createBuf n ∉ (write cfg inp s).events) := by
  refine ⟨write_maxbuf_mono cfg inp s, writes_maxbuf_mono cfg steps s, ?_⟩
  intro hle
  have hf := atBufferCheck_fields cfg inp s
  have hnot : ¬ (atBufferCheck cfg inp s).nme > (atBufferCheck cfg inp s).maxbuf := by
    rw [hf.1, hf.2.1]
    omega
  rcases write_buffer_cases cfg (atBufferCheck cfg inp s) with h | h | h
  · exact absurd h.1 hnot
  · exact absurd h.1 hnot
  · have hev : ∀ e, (e = Event.destroyBuf ∨ ∃ n, e = Event.createBuf n) →
        e ∉ (write cfg inp s).events := by
      intro e hr he
      have h1 := write_realloc_mem cfg inp s e he hr
      rw [h.2.2.2.2] at h1
      have h2 := write_pack_events cfg _ e h1
      aesop
    refine ⟨?_, ?_, hev _ (Or.inl rfl), fun n => hev _ (Or.inr ⟨n, rfl⟩)⟩
    · rw [(write_buffer_fields cfg inp s).1]
      unfold atOpenfile
      rw [h.2.2.1, hf.2.1]
    · rw [(write_buffer_fields cfg inp s).2]
      unfold atOpenfile
      rw [h.2.2.2.1, hf.2.2.1]

/-- Witness of C4: a second step with the same counts reuses the buffer that the
first step allocated. -/
theorem maxbuf_never_decreases_witness :
    localCount (scenarioConfig 1 0 7) (scenarioStep 2)
      ≤ (write (scenarioConfig 1 0 7) (scenarioStep 1) fresh).state.maxbuf ∧
    (write (scenarioConfig 1 0 7) (scenarioStep 2)
      (write (scenarioConfig 1 0 7) (scenarioStep 1) fresh).state).state.buf = 35 :=
  ⟨by decide,
   ((maxbuf_never_decreases (scenarioConfig 1 0 7) (scenarioStep 2) []
      (write (scenarioConfig 1 0 7) (scenarioStep 1) fresh).state).2.2 (by decide)).2.1⟩

theorem localCount_range (cfg : Config) (inp : StepInput) (hc : IntCounts inp) :
    0 ≤ localCount cfg inp ∧ localCount cfg inp < 2 ^ 31 := by
  unfold localCount
  by_cases h : cfg.me < inp.counts.length
  · have := hc (inp.counts.get ⟨cfg.me, h⟩) (List.get_mem _ _ _)
    rw [List.getD_eq_getElem _ _ h]
    simp only [List.get_eq_getElem] at this
    omega
  · rw [List.getD_eq_default _ _ (by omega)]
    norm_num

/-- The product of two non-negative C++ `int` values fits a `bigint`. -/
theorem int_product_range (a b : Int) (ha : 0 ≤ a) (ha2 : a < 2 ^ 31) (hb : 0 ≤ b)
    (hb2 : b < 2 ^ 31) : 0 ≤ a * b ∧ a * b < 2 ^ 62 := by
  constructor
  · exact mul_nonneg ha hb
  · have h1 : a * b ≤ 2 ^ 31 * b := mul_le_mul_of_nonneg_right (le_of_lt ha2) hb
    have h2 : (2 : Int) ^ 31 * b < 2 ^ 31 * 2 ^ 31 :=
      mul_lt_mul_of_pos_left hb2 (by norm_num)
    have h3 : (2 : Int) ^ 31 * 2 ^ 31 = 2 ^ 62 := by norm_num
    omega

theorem write_pack_packs (cfg : Config) (s : DumpState) :
    ∃ b, Event.pack b ∈ (write_pack cfg s).2 := by
  unfold write_pack
  dsimp only
  by_cases h : cfg.sort_flag ≠ 0 ∧ cfg.sortcol = 0
  · exact ⟨true, by simp [h]⟩
  · exact ⟨false, by simp [h]⟩

theorem write_buffer_events_mem (cfg : Config) (inp : StepInput) (s : DumpState) (e : Event)
    (he : e ∈ (write_buffer cfg (atBufferCheck cfg inp s)).events) :
    e ∈ (write cfg inp s).events := by
  rw [write_events_eq]
  simp only [List.mem_append]
  exact Or.inl (Or.inr he)

/-- One `write()` keeps the buffer invariant. -/
theorem write_preserves_BufInv (cfg : Config) (inp : StepInput) (s : DumpState)
    (hcol : 0 ≤ cfg.size_one) (hcol2 : cfg.size_one < 2 ^ 31) (hc : IntCounts inp)
    (hinv : BufInv cfg s) : BufInv cfg (write cfg inp s).state := by
  have hf := atBufferCheck_fields cfg inp s
  have hn := localCount_range cfg inp hc
  have hp := int_product_range _ _ hn.1 hn.2 hcol hcol2
  unfold BufInv at hinv ⊢
  rw [(write_buffer_fields cfg inp s).1, (write_buffer_fields cfg inp s).2]
  unfold atOpenfile
  rcases write_buffer_cases cfg (atBufferCheck cfg inp s) with h | h | h
  · rw [h.2.2.2.2, hf.2.1, hf.2.2.1]
    exact hinv
  · obtain ⟨_, hchk, _, hmax, hbuf, _⟩ := h
    rw [hf.1] at hchk hmax hbuf
    rw [wrapBigint_of_range _ (by omega) (by omega)] at hchk
    unfold MAXSMALLINT at hchk ⊢
    rw [wrapInt_of_range _ (by omega) (by omega)] at hbuf
    rw [hmax, hbuf]
    refine ⟨hn.1, ?_, by omega⟩
    rw [Int.toNat_of_nonneg hp.1]
  · rw [h.2.2.1, h.2.2.2.1, hf.2.1, hf.2.2.1]
    exact hinv

/-- Every run from a fresh writer keeps the buffer invariant. -/
theorem writes_preserve_BufInv (cfg : Config) (steps : List StepInput) (s : DumpState)
    (hcol : 0 ≤ cfg.size_one) (hcol2 : cfg.size_one < 2 ^ 31)
    (hc : ∀ st ∈ steps, IntCounts st) (hinv : BufInv cfg s) :
    BufInv cfg (writes cfg steps s).state := by
  induction steps generalizing s with
  | nil => simpa [writes] using hinv
  | cons inp rest ih =>
    have h1 := write_preserves_BufInv cfg inp s hcol hcol2
      (hc inp (List.mem_cons_self _ _)) hinv
    unfold writes
    dsimp only
    split
    · exact h1
    · exact ih _ (fun st hst => hc st (List.mem_cons_of_mem _ hst)) h1

theorem fresh_BufInv (cfg : Config) : BufInv cfg fresh := by
  unfold BufInv fresh MAXSMALLINT
  simp

/-- C5: let the local counts and `size_one` be non-negative C++ `int` values and
let the size check of `write()` pass (no "Too much per-proc info for dump").
If `nme > maxbuf`, `write()` sets `maxbuf = nme` and allocates `buf` with exactly
`nme * size_one` values (`memory->create(buf, nme * size_one)`). Consequently,
in every state reached from a fresh writer by earlier `write()` calls with the
same `size_one`, `pack()` is called with `buf` holding exactly
`maxbuf * size_one` values, at least `nme * size_one` (`buf` and `maxbuf` are
not assigned after the reallocation, so the fields after `write()` are those at
`pack()`). -/
theorem write_reallocates_exactly (cfg : Config) (inp : StepInput) (s : DumpState)
    (hcol : 0 ≤ cfg.size_one) (hcol2 : cfg.size_one < 2 ^ 31)
    (hc : IntCounts inp)
    (hpass : Event.errorAll "Too much per-proc info for dump" ∉ (write cfg inp s).events) :
    (localCount cfg inp > s.maxbuf →
      (write cfg inp s).state.maxbuf = localCount cfg inp ∧
      ((write cfg inp s).state.buf : Int) = localCount cfg inp * cfg.size_one ∧
      Event.createBuf (localCount cfg inp * cfg.size_one) ∈ (write cfg inp s).events) ∧
    (∀ steps : List StepInput, (∀ st ∈ steps, IntCounts st) →
      s = (writes cfg steps fresh).state →
      (∃ b, Event.pack b ∈ (write cfg inp s).events) ∧
      ((write cfg inp s).state.buf : Int) = (write cfg inp s).state.maxbuf * cfg.size_one ∧
      localCount cfg inp * cfg.size_one ≤ (write cfg inp s).state.maxbuf * cfg.size_one) := by
  have hf := atBufferCheck_fields cfg inp s
  have hn := localCount_range cfg inp hc
  have hp := int_product_range _ _ hn.1 hn.2 hcol hcol2
  have hcases := write_buffer_cases cfg (atBufferCheck cfg inp s)
  have hnofatal : ¬ (write_buffer cfg (atBufferCheck cfg inp s)).events =
      [Event.errorAll "Too much per-proc info for dump"] := by
    intro h
    apply hpass
    apply write_buffer_events_mem
    rw [h]
    exact List.mem_singleton_self _
  constructor
  · intro hgt
    rw [(write_buffer_fields cfg inp s).1, (write_buffer_fields cfg inp s).2]
    unfold atOpenfile
    rcases hcases with h | h | h
    · exact absurd h.2.2.2.1 hnofatal
    · obtain ⟨_, hchk, _, hmax, hbuf, rest, hev, _⟩ := h
      rw [hf.1] at hchk hmax hbuf hev
      rw [wrapBigint_of_range _ (by omega) (by omega)] at hchk
      unfold MAXSMALLINT at hchk
      rw [wrapInt_of_range _ (by omega) (by omega)] at hbuf hev
      refine ⟨hmax, ?_, ?_⟩
      · rw [hbuf, Int.toNat_of_nonneg hp.1]
      · apply write_buffer_events_mem
        rw [hev]
        simp
    · exfalso
      have := h.1
      rw [hf.1, hf.2.1] at this
      omega
  · intro steps hsteps hs
    have hinv : BufInv cfg s := by
      rw [hs]
      exact writes_preserve_BufInv cfg steps fresh hcol hcol2 hsteps (fresh_BufInv cfg)
    have hinv2 := write_preserves_BufInv cfg inp s hcol hcol2 hc hinv
    refine ⟨?_, hinv2.2.1, ?_⟩
    · rcases hcases with h | h | h
      · exact absurd h.2.2.2.1 hnofatal
      · obtain ⟨_, _, _, _, _, rest, hev, hrest⟩ := h
        obtain ⟨b, hb⟩ := write_pack_packs cfg
          { (atBufferCheck cfg inp s) with
            maxbuf := (atBufferCheck cfg inp s).nme,
            buf := (wrapInt ((atBufferCheck cfg inp s).nme * cfg.size_one)).toNat }
        refine ⟨b, write_buffer_events_mem cfg inp s _ ?_⟩
        rw [hev, hrest]
        exact List.mem_append_right _ hb
      · obtain ⟨b, hb⟩ := write_pack_packs cfg (atBufferCheck cfg inp s)
        refine ⟨b, write_buffer_events_mem cfg inp s _ ?_⟩
        rw [h.2.2.2.2]
        exact hb
    · have hmono : localCount cfg inp ≤ (write cfg inp s).state.maxbuf := by
        rw [(write_buffer_fields cfg inp s).1]
        unfold atOpenfile
        rcases hcases with h | h | h
        · exact absurd h.2.2.2.1 hnofatal
        · rw [h.2.2.2.1, hf.1]
        · rw [h.2.2.1, hf.2.1]
          have := h.1
          rw [hf.1, hf.2.1] at this
          omega
      exact mul_le_mul_of_nonneg_right hmono hcol

/-- Witness of C5: the first step of rank 1 (5 rows of 7 columns) allocates
exactly 35 values. -/
theorem write_reallocates_exactly_witness :
    (write (scenarioConfig 1 0 7) (scenarioStep 1) fresh).state.maxbuf = 5 ∧
    ((write (scenarioConfig 1 0 7) (scenarioStep 1) fresh).state.buf : Int) = 5 * 7 :=
  have h := (write_reallocates_exactly (scenarioConfig 1 0 7) (scenarioStep 1) fresh
    (by decide) (by decide) (by unfold IntCounts; decide) (by decide)).1 (by decide)
  ⟨h.1, h.2.1⟩

/-! ## Opening and closing the file -/

theorem fileCalls_append (a b : List Event) : fileCalls (a ++ b) = fileCalls a ++ fileCalls b := by
  unfold fileCalls
  exact List.filter_append a b

theorem fileCalls_eq_nil (l : List Event) (h : ∀ e ∈ l, e.isFileCall = false) :
    fileCalls l = [] := by
  unfold fileCalls
  rw [List.filter_eq_nil_iff]
  intro e he
  rw [h e he]
  simp

theorem fileCalls_write_sizes (cfg : Config) (inp : StepInput) (s : DumpState) :
    fileCalls (write_sizes cfg inp s).2 = [] := by
  apply fileCalls_eq_nil
  intro e he
  rcases write_sizes_events cfg inp s e he with h | ⟨_, h⟩ | ⟨_, h⟩ | ⟨_, h⟩ | ⟨_, _, h⟩ <;>
    rw [h] <;> rfl

theorem fileCalls_write_pack (cfg : Config) (s : DumpState) :
    fileCalls (write_pack cfg s).2 = [] := by
  apply fileCalls_eq_nil
  intro e he
  rcases write_pack_events cfg s e he with h | h | h | h | h <;> rw [h] <;> rfl

theorem fileCalls_write_buffer (cfg : Config) (s : DumpState) :
    fileCalls (write_buffer cfg s).events = [] := by
  rcases write_buffer_cases cfg s with h | h | h
  · rw [h.2.2.2.1]
    rfl
  · obtain ⟨_, _, _, _, _, rest, hev, hrest⟩ := h
    rw [hev, fileCalls_append, hrest, fileCalls_write_pack]
    rfl
  · rw [h.2.2.2.2, fileCalls_write_pack]

theorem fileCalls_puts (l : List Event) (h : ∀ e ∈ l, ∃ n v, e = Event.Put n v) :
    fileCalls l = [] := by
  apply fileCalls_eq_nil
  intro e he
  obtain ⟨n, v, hv⟩ := h e he
  rw [hv]
  rfl

theorem fileCalls_write_step (cfg : Config) (inp : StepInput) (s : DumpState) :
    fileCalls (write_step cfg inp s).2 = if cfg.multifile ≠ 0 then [Event.Close] else [] := by
  have h1 := fileCalls_puts _ (singletonPuts_events cfg inp s)
  have h2 := fileCalls_puts _ (dimensionPuts_events cfg inp s)
  unfold write_step
  dsimp only
  split_ifs <;> simp only [fileCalls_append, h1, h2] <;> rfl

/-- What `openfile()` does when it returns. -/
theorem openfile_returns (cfg : Config) (inp : StepInput) (s : DumpState)
    (hok : (openfile cfg inp s).fatal = none) :
    (openfile cfg inp s).events =
      (if cfg.multifile ≠ 0 then
         [Event.Open (star_subst cfg.filename inp.ntimestep cfg.padflag) true]
       else if s.singlefile_opened = 0 then [Event.Open cfg.filename true] else []) ∧
    (openfile cfg inp s).state.fh =
      (if cfg.multifile ≠ 0 then true else if s.singlefile_opened = 0 then true else s.fh) ∧
    (openfile cfg inp s).state.singlefile_opened =
      (if cfg.multifile ≠ 0 then s.singlefile_opened
       else if s.singlefile_opened = 0 then 1 else s.singlefile_opened) := by
  unfold openfile at hok ⊢
  dsimp only at hok ⊢
  split_ifs at hok ⊢ <;> simp_all

/-- The fields after a `write()` that returns. -/
theorem write_returns_state (cfg : Config) (inp : StepInput) (s : DumpState)
    (hok : (write cfg inp s).fatal = none) :
    (write_buffer cfg (atBufferCheck cfg inp s)).fatal = none ∧
    (openfile cfg inp (atOpenfile cfg inp s)).fatal = none ∧
    (write cfg inp s).state =
      (write_step cfg inp (openfile cfg inp (atOpenfile cfg inp s)).state).1 := by
  have hb : (write_buffer cfg (atBufferCheck cfg inp s)).fatal = none := by
    rw [write_fatal_eq] at hok
    split at hok
    · simp at hok
    · assumption
  have ho : (openfile cfg inp (atOpenfile cfg inp s)).fatal = none := by
    rw [write_fatal_eq, hb] at hok
    exact hok
  refine ⟨hb, ho, ?_⟩
  unfold atOpenfile atBufferCheck at ho
  unfold atBufferCheck at hb
  unfold write atOpenfile atBufferCheck
  dsimp only
  split
  · simp_all
  · split
    · simp_all
    · rfl

theorem atOpenfile_fields (cfg : Config) (inp : StepInput) (s : DumpState) :
    (atOpenfile cfg inp s).fh = s.fh ∧
    (atOpenfile cfg inp s).singlefile_opened = s.singlefile_opened := by
  have hf := atBufferCheck_fields cfg inp s
  have hb := write_buffer_frame cfg (atBufferCheck cfg inp s)
  unfold atOpenfile
  rw [hb.2.2.2.1, hb.2.2.2.2, hf.2.2.2.1, hf.2.2.2.2]
  exact ⟨rfl, rfl⟩

/-- The `Open` and `Close` calls of a `write()` that returns, and the handle it
leaves. -/
theorem write_file_calls (cfg : Config) (inp : StepInput) (s : DumpState)
    (hok : (write cfg inp s).fatal = none) :
    fileCalls (write cfg inp s).events =
      (if cfg.multifile ≠ 0 then
         [Event.Open (star_subst cfg.filename inp.ntimestep cfg.padflag) true, Event.Close]
       else if s.singlefile_opened = 0 then [Event.Open cfg.filename true] else []) ∧
    (write cfg inp s).state.fh =
      (if cfg.multifile ≠ 0 then false else if s.singlefile_opened = 0 then true else s.fh) ∧
    (write cfg inp s).state.singlefile_opened =
      (if cfg.multifile ≠ 0 then s.singlefile_opened
       else if s.singlefile_opened = 0 then 1 else s.singlefile_opened) := by
  obtain ⟨hb, ho, hst⟩ := write_returns_state cfg inp s hok
  obtain ⟨hoe, hofh, hoso⟩ := openfile_returns cfg inp _ ho
  have haf := atOpenfile_fields cfg inp s
  rw [haf.1] at hofh
  rw [haf.2] at hoe hofh hoso
  refine ⟨?_, ?_, ?_⟩
  · rw [write_events_eq, hb]
    dsimp only
    rw [ho]
    dsimp only
    simp only [fileCalls_append, fileCalls_write_sizes, fileCalls_write_buffer,
      fileCalls_write_step, hoe]
    split_ifs <;> rfl
  · rw [hst]
    unfold write_step
    dsimp only
    split_ifs <;> simp_all
  · rw [hst]
    unfold write_step
    dsimp only
    split_ifs <;> simp_all

/-! ## Runs -/

/-- A run that returns is made of calls of `write()` that return. -/
theorem writes_cons_returns (cfg : Config) (inp : StepInput) (rest : List StepInput)
    (s : DumpState) (hok : (writes cfg (inp :: rest) s).fatal = none) :
    (write cfg inp s).fatal = none ∧
    (writes cfg rest (write cfg inp s).state).fatal = none ∧
    (writes cfg (inp :: rest) s).events =
      (write cfg inp s).events ++ (writes cfg rest (write cfg inp s).state).events ∧
    (writes cfg (inp :: rest) s).state = (writes cfg rest (write cfg inp s).state).state := by
  simp only [writes] at hok ⊢
  cases h : (write cfg inp s).fatal with
  | some msg =>
    rw [h] at hok
    simp at hok
  | none =>
    rw [h] at hok
    exact ⟨rfl, hok, rfl, rfl⟩

/-- A life that ends without fatal error is a run followed by the destructor. -/
theorem lifetime_returns (cfg : Config) (steps : List StepInput)
    (hok : (lifetime cfg steps).fatal = none) :
    (writes cfg steps fresh).fatal = none ∧
    (lifetime cfg steps).events =
      (writes cfg steps fresh).events ++ (destructor (writes cfg steps fresh).state).2 ∧
    (lifetime cfg steps).state = (destructor (writes cfg steps fresh).state).1 := by
  unfold lifetime at hok ⊢
  dsimp only at hok ⊢
  cases h : (writes cfg steps fresh).fatal with
  | some msg =>
    rw [h] at hok
    simp at hok
  | none => exact ⟨rfl, rfl, rfl⟩

/-- In single-file mode, once the file is open, later steps neither open nor
close it. -/
theorem writes_single_file_opened (cfg : Config) (steps : List StepInput) (s : DumpState)
    (hmode : cfg.multifile = 0) (hso : s.singlefile_opened ≠ 0)
    (hok : (writes cfg steps s).fatal = none) :
    fileCalls (writes cfg steps s).events = [] ∧
    (writes cfg steps s).state.fh = s.fh ∧
    (writes cfg steps s).state.singlefile_opened ≠ 0 := by
  induction steps generalizing s with
  | nil => exact ⟨rfl, rfl, hso⟩
  | cons inp rest ih =>
    obtain ⟨h1, h2, hev, hst⟩ := writes_cons_returns cfg inp rest s hok
    obtain ⟨hfc, hfh, hso2⟩ := write_file_calls cfg inp s h1
    simp only [hmode, ne_eq, not_true_eq_false, if_false, hso] at hfc hfh hso2
    have hso3 : (write cfg inp s).state.singlefile_opened ≠ 0 := by rw [hso2]; exact hso
    obtain ⟨i1, i2, i3⟩ := ih _ hso3 h2
    refine ⟨?_, ?_, ?_⟩
    · rw [hev, fileCalls_append, hfc, i1]
      rfl
    · rw [hst, i2, hfh]
    · rw [hst]
      exact i3

/-- In per-step mode every step opens its own file and closes it. -/
theorem writes_per_step_file (cfg : Config) (steps : List StepInput) (s : DumpState)
    (hmode : cfg.multifile ≠ 0) (hfh : s.fh = false)
    (hok : (writes cfg steps s).fatal = none) :
    fileCalls (writes cfg steps s).events =
      steps.flatMap (fun inp =>
        [Event.Open (star_subst cfg.filename inp.ntimestep cfg.padflag) true, Event.Close]) ∧
    (writes cfg steps s).state.fh = false := by
  induction steps generalizing s with
  | nil => exact ⟨rfl, hfh⟩
  | cons inp rest ih =>
    obtain ⟨h1, h2, hev, hst⟩ := writes_cons_returns cfg inp rest s hok
    obtain ⟨hfc, hfh2, _⟩ := write_file_calls cfg inp s h1
    simp only [hmode, ne_eq, not_false_eq_true, if_true] at hfc hfh2
    obtain ⟨i1, i2⟩ := ih _ hfh2 h2
    refine ⟨?_, ?_⟩
    · rw [hev, fileCalls_append, hfc, i1]
      simp [List.flatMap_cons]
    · rw [hst]
      exact i2

/-- In single-file mode the file calls of a whole life with at least one step are
one `Open` and one `Close`. -/
theorem single_file_opens_once (cfg : Config) (inp : StepInput) (rest : List StepInput)
    (hmode : cfg.multifile = 0) (hok : (lifetime cfg (inp :: rest)).fatal = none) :
    fileCalls (lifetime cfg (inp :: rest)).events =
      [Event.Open cfg.filename true, Event.Close] := by
  obtain ⟨hw, hev, _⟩ := lifetime_returns cfg (inp :: rest) hok
  obtain ⟨h1, h2, hev2, hst⟩ := writes_cons_returns cfg inp rest fresh hw
  obtain ⟨hfc, hfh, hso⟩ := write_file_calls cfg inp fresh h1
  have hfresh : fresh.singlefile_opened = 0 := rfl
  simp only [hmode, ne_eq, not_true_eq_false, if_false, hfresh, if_true] at hfc hfh hso
  have hso2 : (write cfg inp fresh).state.singlefile_opened ≠ 0 := by rw [hso]; decide
  obtain ⟨i1, i2, _⟩ := writes_single_file_opened cfg rest _ hmode hso2 h2
  have hd : (destructor (writes cfg (inp :: rest) fresh).state).2 = [Event.Close] := by
    unfold destructor
    rw [hst, i2, hfh]
    rfl
  rw [hev, hd, hev2]
  simp only [fileCalls_append, hfc, i1]
  rfl

/-! ## C6: single-file mode -/

/-- C6: in single-file mode (`multifile == 0`) a fresh writer that performs
`n >= 1` calls of `write()` (the steps `inp :: rest`, all returning) and is then
destroyed issues exactly two file calls: one `Open` of `filename`, which lies in
the first `write()`, and one `Close`, which is the destructor's and the last
call of all; the later `write()` calls contain no `Open` and no `Close`. -/
theorem single_file_one_open_one_close (cfg : Config) (inp : StepInput)
    (rest : List StepInput) (hmode : cfg.multifile = 0)
    (hok : (lifetime cfg (inp :: rest)).fatal = none) :
    (lifetime cfg (inp :: rest)).events =
      (write cfg inp fresh).events ++ (writes cfg rest (write cfg inp fresh).state).events
        ++ [Event.Close] ∧
    fileCalls (write cfg inp fresh).events = [Event.Open cfg.filename true] ∧
    fileCalls (writes cfg rest (write cfg inp fresh).state).events = [] ∧
    (destructor (writes cfg (inp :: rest) fresh).state).2 = [Event.Close] ∧
    fileCalls (lifetime cfg (inp :: rest)).events =
      [Event.Open cfg.filename true, Event.Close] := by
  obtain ⟨hw, hev, _⟩ := lifetime_returns cfg (inp :: rest) hok
  obtain ⟨h1, h2, hev2, hst⟩ := writes_cons_returns cfg inp rest fresh hw
  obtain ⟨hfc, hfh, hso⟩ := write_file_calls cfg inp fresh h1
  have hfresh : fresh.singlefile_opened = 0 := rfl
  simp only [hmode, ne_eq, not_true_eq_false, if_false, hfresh, if_true] at hfc hfh hso
  have hso2 : (write cfg inp fresh).state.singlefile_opened ≠ 0 := by rw [hso]; decide
  obtain ⟨i1, i2, _⟩ := writes_single_file_opened cfg rest _ hmode hso2 h2
  have hd : (destructor (writes cfg (inp :: rest) fresh).state).2 = [Event.Close] := by
    unfold destructor
    rw [hst, i2, hfh]
    rfl
  refine ⟨?_, hfc, i1, hd, ?_⟩
  · rw [hev, hd, hev2]
  · rw [hev, hd, hev2]
    simp only [fileCalls_append, hfc, i1]
    rfl

/-- Witness of C6: the spec's scenario, 10 consecutive steps in single-file mode. -/
theorem single_file_one_open_one_close_witness :
    fileCalls (lifetime (scenarioConfig 0 0 7)
      (scenarioStep 1 :: (List.range 9).map (fun k => scenarioStep (k + 2)))).events =
      [Event.Open "dump.*.bp" true, Event.Close] :=
  (single_file_one_open_one_close (scenarioConfig 0 0 7) (scenarioStep 1)
    ((List.range 9).map (fun k => scenarioStep (k + 2))) rfl (by decide)).2.2.2.2

/-! ## C7: per-step file mode -/

theorem takeWhile_star (pre suf : List Char) (h : '*' ∉ pre) :
    (pre ++ '*' :: suf).takeWhile (fun c => c != '*') = pre := by
  induction pre with
  | nil => simp
  | cons a t ih =>
    have ha : a ≠ '*' := fun e => h (e ▸ List.mem_cons_self _ _)
    have ht : '*' ∉ t := fun m => h (List.mem_cons_of_mem _ m)
    simp [List.takeWhile_cons, ha, ih ht]

theorem dropWhile_star (pre suf : List Char) (h : '*' ∉ pre) :
    (pre ++ '*' :: suf).dropWhile (fun c => c != '*') = '*' :: suf := by
  induction pre with
  | nil => simp
  | cons a t ih =>
    have ha : a ≠ '*' := fun e => h (e ▸ List.mem_cons_self _ _)
    have ht : '*' ∉ t := fun m => h (List.mem_cons_of_mem _ m)
    simp [List.dropWhile_cons, ha, ih ht]

/-- The substituted name: the text before the first `'*'`, the zero-padded step
number, the text after it. -/
theorem star_subst_token (pre suf : List Char) (step pad : Int) (h : '*' ∉ pre) :
    star_subst (String.mk (pre ++ '*' :: suf)) step pad =
      String.mk (pre
        ++ (List.replicate (pad.toNat - (Nat.toDigits 10 step.toNat).length) '0'
            ++ Nat.toDigits 10 step.toNat)
        ++ suf) := by
  unfold star_subst zeroPad
  have hmem : '*' ∈ (String.mk (pre ++ '*' :: suf)).toList := by
    show '*' ∈ pre ++ '*' :: suf
    simp
  rw [if_pos hmem]
  show String.mk ((pre ++ '*' :: suf).takeWhile (fun c => c != '*') ++ _
    ++ ((pre ++ '*' :: suf).dropWhile (fun c => c != '*')).tail) = _
  rw [takeWhile_star pre suf h, dropWhile_star pre suf h]
  rfl

/-- C7: in per-step file mode (`multifile != 0`) a `write()` that returns issues
exactly two file calls, one `Open` followed by one `Close`; the name passed to
`Open` is `star_subst(filename, ntimestep, padflag)`, which for a pattern
`pre*suf` is `pre`, the step number zero-padded to `padflag` digits, `suf`; the
pattern "dump.*.bp" with pad width 4 at step 100 gives "dump.0100.bp". -/
theorem per_step_file_open_close (cfg : Config) (inp : StepInput) (s : DumpState)
    (hmode : cfg.multifile ≠ 0) (hok : (write cfg inp s).fatal = none) :
    fileCalls (write cfg inp s).events =
      [Event.Open (star_subst cfg.filename inp.ntimestep cfg.padflag) true, Event.Close] ∧
    (∀ pre suf : List Char, '*' ∉ pre → cfg.filename = String.mk (pre ++ '*' :: suf) →
      star_subst cfg.filename inp.ntimestep cfg.padflag =
        String.mk (pre
          ++ (List.replicate
                (cfg.padflag.toNat - (Nat.toDigits 10 inp.ntimestep.toNat).length) '0'
              ++ Nat.toDigits 10 inp.ntimestep.toNat)
          ++ suf)) ∧
    star_subst "dump.*.bp" 100 4 = "dump.0100.bp" := by
  refine ⟨?_, ?_, by decide⟩
  · have h := (write_file_calls cfg inp s hok).1
    rw [if_pos hmode] at h
    exact h
  · intro pre suf hpre hname
    rw [hname]
    exact star_subst_token pre suf _ _ hpre

/-- Witness of C7: the spec's scenario, pattern "dump.*.bp", pad width 4, step 100. -/
theorem per_step_file_open_close_witness :
    fileCalls (write (scenarioConfig 0 1 7) (scenarioStep 100) fresh).events =
      [Event.Open "dump.0100.bp" true, Event.Close] :=
  (per_step_file_open_close (scenarioConfig 0 1 7) (scenarioStep 100) fresh
    (by decide) (by decide)).1

/-! ## C8: the file handle over the life of a writer -/

theorem handleReplay_fileCalls (h : Bool) (evs : List Event) :
    handleReplay h evs = handleReplay h (fileCalls evs) := by
  induction evs generalizing h with
  | nil => rfl
  | cons e rest ih =>
    cases e <;> simp [handleReplay, fileCalls, Event.isFileCall, List.filter_cons] <;>
      first
      | exact ih _
      | (split <;> first | rfl | exact ih _)

theorem handleReplay_per_step (cfg : Config) (steps : List StepInput) :
    handleReplay false (steps.flatMap (fun inp =>
      [Event.Open (star_subst cfg.filename inp.ntimestep cfg.padflag) true, Event.Close]))
      = some false := by
  induction steps with
  | nil => rfl
  | cons inp rest ih =>
    simp only [List.flatMap_cons, List.cons_append, List.nil_append, handleReplay]
    simpa using ih

/-- C8: for either file mode and any number `n >= 0` of `write()` calls that
return, followed by the destructor: the handle is not open afterwards; replayed
on the handle slot, the `Open` and `Close` calls never close a handle that is
not open and never drop a handle that is still open, and leave it closed, so
each `Open` is followed by its one `Close` before the next `Open`. In per-step
mode the file calls are `Open, Close` once per step and the destructor closes
nothing; in single-file mode they are one `Open` and one `Close`, or none at
all when there was no step. -/
theorem file_handle_discipline (cfg : Config) (steps : List StepInput)
    (hok : (lifetime cfg steps).fatal = none) :
    (lifetime cfg steps).state.fh = false ∧
    handleReplay false (lifetime cfg steps).events = some false ∧
    (cfg.multifile ≠ 0 →
      fileCalls (lifetime cfg steps).events =
        steps.flatMap (fun inp =>
          [Event.Open (star_subst cfg.filename inp.ntimestep cfg.padflag) true,
           Event.Close]) ∧
      (destructor (writes cfg steps fresh).state).2 = []) ∧
    (cfg.multifile = 0 →
      fileCalls (lifetime cfg steps).events =
        if steps = [] then [] else [Event.Open cfg.filename true, Event.Close]) := by
  obtain ⟨hw, hev, hst⟩ := lifetime_returns cfg steps hok
  have hfh : (lifetime cfg steps).state.fh = false := by
    rw [hst]
    unfold destructor
    split
    · rfl
    · rename_i h
      simpa using h
  have hmulti : cfg.multifile ≠ 0 →
      fileCalls (lifetime cfg steps).events =
        steps.flatMap (fun inp =>
          [Event.Open (star_subst cfg.filename inp.ntimestep cfg.padflag) true,
           Event.Close]) ∧
      (destructor (writes cfg steps fresh).state).2 = [] := by
    intro hmode
    obtain ⟨h1, h2⟩ := writes_per_step_file cfg steps fresh hmode rfl hw
    have hd : (destructor (writes cfg steps fresh).state).2 = [] := by
      unfold destructor
      rw [h2]
      rfl
    refine ⟨?_, hd⟩
    rw [hev, hd, List.append_nil]
    exact h1
  have hsingle : cfg.multifile = 0 →
      fileCalls (lifetime cfg steps).events =
        if steps = [] then [] else [Event.Open cfg.filename true, Event.Close] := by
    intro hmode
    cases steps with
    | nil => rfl
    | cons inp rest =>
      rw [if_neg (List.cons_ne_nil _ _)]
      exact (single_file_opens_once cfg inp rest hmode hok)
  refine ⟨hfh, ?_, hmulti, hsingle⟩
  rw [handleReplay_fileCalls]
  by_cases hmode : cfg.multifile = 0
  · rw [hsingle hmode]
    split <;> rfl
  · rw [(hmulti hmode).1]
    exact handleReplay_per_step cfg steps

/-- Witness of C8: three steps in per-step mode. -/
theorem file_handle_discipline_witness :
    (lifetime (scenarioConfig 0 1 7)
      [scenarioStep 100, scenarioStep 200, scenarioStep 300]).state.fh = false ∧
    handleReplay false (lifetime (scenarioConfig 0 1 7)
      [scenarioStep 100, scenarioStep 200, scenarioStep 300]).events = some false :=
  have h := file_handle_discipline (scenarioConfig 0 1 7)
    [scenarioStep 100, scenarioStep 200, scenarioStep 300] (by decide)
  ⟨h.1, h.2.1⟩

/-! ## C9: the step markers -/

theorem write_preserves_FileInv (cfg : Config) (inp : StepInput) (s : DumpState)
    (hinv : FileInv cfg s) (hok : (write cfg inp s).fatal = none) :
    FileInv cfg (write cfg inp s).state := by
  obtain ⟨_, hfh, hso⟩ := write_file_calls cfg inp s hok
  unfold FileInv at hinv ⊢
  rw [hfh, hso]
  constructor
  · intro hm
    rw [if_pos hm]
  · intro hm
    have hm2 : ¬ cfg.multifile ≠ 0 := by simpa using hm
    rw [if_neg hm2, if_neg hm2]
    by_cases h0 : s.singlefile_opened = 0
    · rw [if_pos h0, if_pos h0]
      exact ⟨fun h => absurd h (by decide), fun _ => rfl⟩
    · rw [if_neg h0, if_neg h0]
      exact ⟨fun h => absurd h h0, fun _ => (hinv.2 hm).2 h0⟩

theorem writes_preserve_FileInv (cfg : Config) (steps : List StepInput) (s : DumpState)
    (hinv : FileInv cfg s) (hok : (writes cfg steps s).fatal = none) :
    FileInv cfg (writes cfg steps s).state := by
  induction steps generalizing s with
  | nil => exact hinv
  | cons inp rest ih =>
    obtain ⟨h1, h2, _, hst⟩ := writes_cons_returns cfg inp rest s hok
    rw [hst]
    exact ih _ (write_preserves_FileInv cfg inp s hinv h1) h2

theorem fresh_FileInv (cfg : Config) : FileInv cfg fresh :=
  ⟨fun _ => rfl, fun _ => ⟨fun _ => rfl, fun h => absurd rfl h⟩⟩

/-- The calls of `write()` before `BeginStep` are no step calls. -/
theorem write_prelude_no_step_call (cfg : Config) (inp : StepInput) (s : DumpState) :
    ∀ e ∈ (write_sizes cfg inp (write_box inp s)).2
        ++ (write_buffer cfg (atBufferCheck cfg inp s)).events
        ++ (openfile cfg inp (atOpenfile cfg inp s)).events, e.isStepCall = false := by
  intro e he
  simp only [List.mem_append] at he
  rcases he with (he | he) | he
  · rcases write_sizes_events cfg inp _ e he with h | ⟨_, h⟩ | ⟨_, h⟩ | ⟨_, h⟩ | ⟨_, _, h⟩ <;>
      rw [h] <;> rfl
  · rcases write_buffer_cases cfg (atBufferCheck cfg inp s) with h | h | h
    · rw [h.2.2.2.1] at he
      rw [List.mem_singleton.mp he]
      rfl
    · obtain ⟨_, _, _, _, _, rest, hev, hrest⟩ := h
      rw [hev] at he
      simp only [List.cons_append, List.nil_append, List.mem_cons] at he
      rcases he with h | h | h
      · rw [h]; rfl
      · rw [h]; rfl
      · rw [hrest] at h
        rcases write_pack_events cfg _ e h with h | h | h | h | h <;> rw [h] <;> rfl
    · rw [h.2.2.2.2] at he
      rcases write_pack_events cfg _ e he with h | h | h | h | h <;> rw [h] <;> rfl
  · rcases openfile_events cfg inp _ e he with ⟨_, _, h⟩ | ⟨_, h⟩ <;> rw [h] <;> rfl

/-- C9: in every state reached from a fresh writer by `write()` calls that
returned, a `write()` that returns issues its calls as
`prelude, BeginStep, puts, EndStep` followed by `Close` exactly in per-step
mode, where the prelude holds no `BeginStep`, `Put`, `EndStep` or `Close`, the
handle is valid once the prelude is done (replaying its `Open` on the handle
left by the previous steps), and `puts` holds `Put` calls only, among them the
scalars and the "atoms" payload; and a `write()` that ends in a fatal error
issues no `BeginStep`, `Put`, `EndStep` or `Close` at all. -/
theorem write_step_bracket (cfg : Config) (steps : List StepInput) (inp : StepInput)
    (hrun : (writes cfg steps fresh).fatal = none) :
    ((write cfg inp (writes cfg steps fresh).state).fatal = none →
      ∃ pre puts,
        (write cfg inp (writes cfg steps fresh).state).events =
          pre ++ [Event.BeginStep] ++ puts ++ [Event.EndStep]
            ++ (if cfg.multifile ≠ 0 then [Event.Close] else []) ∧
        (∀ e ∈ pre, e.isStepCall = false) ∧
        handleReplay (writes cfg steps fresh).state.fh pre = some true ∧
        (∀ e ∈ puts, ∃ n v, e = Event.Put n v) ∧
        (∃ v, Event.Put "atoms" v ∈ puts)) ∧
    ((write cfg inp (writes cfg steps fresh).state).fatal ≠ none →
      ∀ e ∈ (write cfg inp (writes cfg steps fresh).state).events, e.isStepCall = false) := by
  have hinv := writes_preserve_FileInv cfg steps fresh (fresh_FileInv cfg) hrun
  generalize (writes cfg steps fresh).state = s at hinv ⊢
  have hpre := write_prelude_no_step_call cfg inp s
  constructor
  · intro hok
    obtain ⟨hb, ho, _⟩ := write_returns_state cfg inp s hok
    obtain ⟨hoe, _, _⟩ := openfile_returns cfg inp _ ho
    have haf := atOpenfile_fields cfg inp s
    rw [haf.2] at hoe
    refine ⟨_, singletonPuts cfg inp (openfile cfg inp (atOpenfile cfg inp s)).state
      ++ dimensionPuts cfg inp (openfile cfg inp (atOpenfile cfg inp s)).state, ?_, hpre, ?_,
      ?_, ?_⟩
    · rw [write_events_eq, hb]
      dsimp only
      rw [ho]
      dsimp only
      unfold write_step
      dsimp only
      split_ifs <;> simp
    · rw [handleReplay_fileCalls]
      simp only [fileCalls_append, fileCalls_write_sizes, fileCalls_write_buffer, hoe,
        List.nil_append]
      unfold FileInv at hinv
      by_cases hm : cfg.multifile = 0
      · have hm2 : ¬ cfg.multifile ≠ 0 := by simpa using hm
        rw [if_neg hm2]
        by_cases h0 : s.singlefile_opened = 0
        · rw [if_pos h0, ((hinv.2 hm).1 h0)]
          rfl
        · rw [if_neg h0, ((hinv.2 hm).2 h0)]
          rfl
      · rw [if_pos hm, hinv.1 hm]
        rfl
    · intro e he
      rcases List.mem_append.mp he with h | h
      · exact singletonPuts_events cfg inp _ e h
      · exact dimensionPuts_events cfg inp _ e h
    · refine ⟨Value.rows (openfile cfg inp (atOpenfile cfg inp s)).state.buf,
        List.mem_append_right _ ?_⟩
      unfold dimensionPuts
      simp
  · intro hfatal e he
    rw [write_events_eq] at he
    rw [write_fatal_eq] at hfatal
    cases hb : (write_buffer cfg (atBufferCheck cfg inp s)).fatal with
    | some msg =>
      rw [hb] at he
      simp only [List.append_nil] at he
      exact hpre e (List.mem_append_left _ he)
    | none =>
      rw [hb] at he hfatal
      dsimp only at he hfatal
      cases ho : (openfile cfg inp (atOpenfile cfg inp s)).fatal with
      | some msg =>
        rw [ho] at he
        simp only [List.append_nil] at he
        exact hpre e he
      | none => exact absurd ho hfatal

/-- Witness of C9: the second step of a single-file run, which reuses the handle
opened by the first step. -/
theorem write_step_bracket_witness :
    ∃ pre puts,
      (write (scenarioConfig 0 0 7) (scenarioStep 2)
        (writes (scenarioConfig 0 0 7) [scenarioStep 1] fresh).state).events =
        pre ++ [Event.BeginStep] ++ puts ++ [Event.EndStep]
          ++ (if (scenarioConfig 0 0 7).multifile ≠ 0 then [Event.Close] else []) ∧
      (∀ e ∈ pre, e.isStepCall = false) ∧
      handleReplay (writes (scenarioConfig 0 0 7) [scenarioStep 1] fresh).state.fh pre
        = some true ∧
      (∀ e ∈ puts, ∃ n v, e = Event.Put n v) ∧
      (∃ v, Event.Put "atoms" v ∈ puts) :=
  (write_step_bracket (scenarioConfig 0 0 7) [scenarioStep 1] (scenarioStep 2)
    (by decide)).1 (by decide)

/-! ## C10: which rank writes which scalar -/

theorem filter_isPut_eq_nil (l : List Event) (h : ∀ e ∈ l, e.isStepCall = false) :
    l.filter Event.isPut = [] := by
  rw [List.filter_eq_nil_iff]
  intro e he
  have := h e he
  cases e <;> simp_all [Event.isPut, Event.isStepCall]

theorem filter_isPut_puts (l : List Event) (h : ∀ e ∈ l, ∃ n v, e = Event.Put n v) :
    l.filter Event.isPut = l := by
  rw [List.filter_eq_self]
  intro e he
  obtain ⟨n, v, hv⟩ := h e he
  rw [hv]
  rfl

/-- The `Put` calls of a `write()` that returns are those of `write_step`. -/
theorem write_puts_eq (cfg : Config) (inp : StepInput) (s : DumpState)
    (hok : (write cfg inp s).fatal = none) :
    (write cfg inp s).events.filter Event.isPut =
      singletonPuts cfg inp (openfile cfg inp (atOpenfile cfg inp s)).state
        ++ dimensionPuts cfg inp (openfile cfg inp (atOpenfile cfg inp s)).state := by
  obtain ⟨hb, ho, _⟩ := write_returns_state cfg inp s hok
  rw [write_events_eq, hb]
  dsimp only
  rw [ho]
  dsimp only
  rw [← List.append_assoc, List.filter_append,
    filter_isPut_eq_nil _ (write_prelude_no_step_call cfg inp s), List.nil_append]
  have h1 := filter_isPut_puts _ (singletonPuts_events cfg inp
    (openfile cfg inp (atOpenfile cfg inp s)).state)
  have h2 := filter_isPut_puts _ (dimensionPuts_events cfg inp
    (openfile cfg inp (atOpenfile cfg inp s)).state)
  unfold write_step
  dsimp only
  split_ifs <;> simp [List.filter_append, h1, h2, List.filter_cons, Event.isPut]

/-- The box fields and sizes seen by `write_step`. -/
theorem write_step_input (cfg : Config) (inp : StepInput) (s : DumpState) :
    (openfile cfg inp (atOpenfile cfg inp s)).state.boxxlo = (write_box inp s).boxxlo ∧
    (openfile cfg inp (atOpenfile cfg inp s)).state.boxxhi = (write_box inp s).boxxhi ∧
    (openfile cfg inp (atOpenfile cfg inp s)).state.boxylo = (write_box inp s).boxylo ∧
    (openfile cfg inp (atOpenfile cfg inp s)).state.boxyhi = (write_box inp s).boxyhi ∧
    (openfile cfg inp (atOpenfile cfg inp s)).state.boxzlo = (write_box inp s).boxzlo ∧
    (openfile cfg inp (atOpenfile cfg inp s)).state.boxzhi = (write_box inp s).boxzhi ∧
    (openfile cfg inp (atOpenfile cfg inp s)).state.boxxy = (write_box inp s).boxxy ∧
    (openfile cfg inp (atOpenfile cfg inp s)).state.boxxz = (write_box inp s).boxxz ∧
    (openfile cfg inp (atOpenfile cfg inp s)).state.boxyz = (write_box inp s).boxyz := by
  unfold openfile atOpenfile write_buffer atBufferCheck write_pack write_sizes
  dsimp only
  split_ifs <;> simp

/-- C10: in a `write()` that returns, on a rank `me` of a world of `int`-sized
local counts, the `Put` calls are, in order: on rank 0 only, "ntimestep",
"nprocs", the six box bounds, and the three tilt factors exactly when the domain
is triclinic; then, on every rank, "natoms" with `ntotal` (the sum of the
counts), "ncolumns" with `size_one`, "nme" with the local count, "offset" with
`atomOffset` (the sum of the lower ranks' counts), and the "atoms" payload. A
rank other than 0 puts none of the singleton scalars. -/
theorem write_puts_by_rank (cfg : Config) (inp : StepInput) (s : DumpState)
    (hme : cfg.me < inp.counts.length)
    (hlen : inp.counts.length < 2 ^ 31)
    (hc : IntCounts inp)
    (hok : (write cfg inp s).fatal = none) :
    (write cfg inp s).events.filter Event.isPut =
      (if cfg.me = 0 then
        [Event.Put "ntimestep" (Value.u64 (toSizeT inp.ntimestep)),
         Event.Put "nprocs" (Value.i32 cfg.nprocs),
         Event.Put "boxxlo"
           (Value.f64 (if inp.triclinic = 0 then inp.boxlo.1 else inp.boxlo_bound.1)),
         Event.Put "boxxhi"
           (Value.f64 (if inp.triclinic = 0 then inp.boxhi.1 else inp.boxhi_bound.1)),
         Event.Put "boxylo"
           (Value.f64 (if inp.triclinic = 0 then inp.boxlo.2.1 else inp.boxlo_bound.2.1)),
         Event.Put "boxyhi"
           (Value.f64 (if inp.triclinic = 0 then inp.boxhi.2.1 else inp.boxhi_bound.2.1)),
         Event.Put "boxzlo"
           (Value.f64 (if inp.triclinic = 0 then inp.boxlo.2.2 else inp.boxlo_bound.2.2)),
         Event.Put "boxzhi"
           (Value.f64 (if inp.triclinic = 0 then inp.boxhi.2.2 else inp.boxhi_bound.2.2))]
        ++ (if inp.triclinic ≠ 0 then
             [Event.Put "boxxy" (Value.f64 inp.xy),
              Event.Put "boxxz" (Value.f64 inp.xz),
              Event.Put "boxyz" (Value.f64 inp.yz)]
            else [])
       else [])
      ++ [Event.Put "natoms" (Value.u64 inp.counts.sum),
          Event.Put "ncolumns" (Value.i32 cfg.size_one),
          Event.Put "nme" (Value.u64 (inp.counts.get ⟨cfg.me, hme⟩)),
          Event.Put "offset" (Value.u64 (inp.counts.take cfg.me).sum),
          Event.Put "atoms" (Value.rows (write cfg inp s).state.buf)] := by
  have hsum := sum_lt_of_int_counts _ hc hlen
  have htake := sum_take_le inp.counts cfg.me
  have hget : inp.counts.get ⟨cfg.me, hme⟩ < 2 ^ 31 := hc _ (List.get_mem _ _ _)
  have h1 : toSizeT (globalTotal inp) = inp.counts.sum := by
    rw [globalTotal_eq inp hc hlen]
    exact toSizeT_natCast _ (by omega)
  have h2 : toSizeT (atomOffset cfg inp) = (inp.counts.take cfg.me).sum := by
    rw [atomOffset_eq cfg inp hc hlen]
    exact toSizeT_natCast _ (by omega)
  have h4 : toSizeT (localCount cfg inp) = inp.counts.get ⟨cfg.me, hme⟩ := by
    unfold localCount
    rw [List.getD_eq_getElem _ _ hme]
    exact toSizeT_natCast _ (by simp only [List.get_eq_getElem] at hget; omega)
  obtain ⟨_, _, hst⟩ := write_returns_state cfg inp s hok
  have hnt : (openfile cfg inp (atOpenfile cfg inp s)).state.ntotal = globalTotal inp := by
    rw [← (write_state_sizes cfg inp s).1, hst, (write_step_frame cfg inp _).1]
  have hbuf : (openfile cfg inp (atOpenfile cfg inp s)).state.buf
      = (write cfg inp s).state.buf := by
    rw [hst, (write_step_frame cfg inp _).2.2.2.2]
  obtain ⟨x1, x2, x3, x4, x5, x6, x7, x8, x9⟩ := write_step_input cfg inp s
  rw [write_puts_eq cfg inp s hok]
  unfold singletonPuts dimensionPuts
  rw [x1, x2, x3, x4, x5, x6, x7, x8, x9, hnt, hbuf, h1, h2, h4]
  unfold write_box
  by_cases h0 : cfg.me = 0 <;> by_cases ht : inp.triclinic = 0 <;> simp [h0, ht]

/-- Witness of C10: rank 1 of the two-rank scenario puts the dimension scalars
and the payload only. -/
theorem write_puts_by_rank_witness :
    (write (scenarioConfig 1 0 7) (scenarioStep 1) fresh).events.filter Event.isPut =
      [Event.Put "natoms" (Value.u64 8), Event.Put "ncolumns" (Value.i32 7),
       Event.Put "nme" (Value.u64 5), Event.Put "offset" (Value.u64 3),
       Event.Put "atoms" (Value.rows 35)] :=
  write_puts_by_rank (scenarioConfig 1 0 7) (scenarioStep 1) fresh
    (by decide) (by decide) (by unfold IntCounts; decide) (by decide)

/-! ## C13: the capacity error -/

/-- C13: let `size_one` and the local counts be non-negative C++ `int` values. In
every state reached from a fresh writer by earlier `write()` calls with the same
`size_one`, a `write()` whose `nme * size_one` exceeds `MAXSMALLINT = 2^31 - 1`
ends in the fatal error "Too much per-proc info for dump" and issues neither
`pack` nor any `Put` nor any other step call; the product compared with the bound
is the exact product (the 64-bit multiplication does not wrap). -/
theorem write_capacity_error (cfg : Config) (steps : List StepInput) (inp : StepInput)
    (hcol : 0 ≤ cfg.size_one) (hcol2 : cfg.size_one < 2 ^ 31)
    (hsteps : ∀ st ∈ steps, IntCounts st) (hc : IntCounts inp)
    (hbig : localCount cfg inp * cfg.size_one > MAXSMALLINT) :
    MAXSMALLINT = 2 ^ 31 - 1 ∧
    wrapBigint (localCount cfg inp * cfg.size_one) = localCount cfg inp * cfg.size_one ∧
    (write cfg inp (writes cfg steps fresh).state).fatal
      = some "Too much per-proc info for dump" ∧
    Event.errorAll "Too much per-proc info for dump"
      ∈ (write cfg inp (writes cfg steps fresh).state).events ∧
    (∀ b, Event.pack b ∉ (write cfg inp (writes cfg steps fresh).state).events) ∧
    (∀ e ∈ (write cfg inp (writes cfg steps fresh).state).events, e.isStepCall = false) := by
  have hinv := writes_preserve_BufInv cfg steps fresh hcol hcol2 hsteps (fresh_BufInv cfg)
  generalize (writes cfg steps fresh).state = s at hinv ⊢
  have hf := atBufferCheck_fields cfg inp s
  have hn := localCount_range cfg inp hc
  have hp := int_product_range _ _ hn.1 hn.2 hcol hcol2
  have hwrap : wrapBigint (localCount cfg inp * cfg.size_one)
      = localCount cfg inp * cfg.size_one := wrapBigint_of_range _ (by omega) (by omega)
  have hgt : localCount cfg inp > s.maxbuf := by
    by_contra hle
    have h1 : localCount cfg inp * cfg.size_one ≤ s.maxbuf * cfg.size_one :=
      mul_le_mul_of_nonneg_right (by omega) hcol
    have h2 := hinv.2.2
    omega
  have hcase : (write_buffer cfg (atBufferCheck cfg inp s)).fatal
        = some "Too much per-proc info for dump" ∧
      (write_buffer cfg (atBufferCheck cfg inp s)).events
        = [Event.errorAll "Too much per-proc info for dump"] := by
    rcases write_buffer_cases cfg (atBufferCheck cfg inp s) with h | h | h
    · exact ⟨h.2.2.1, h.2.2.2.1⟩
    · exfalso
      have := h.2.1
      rw [hf.1, hwrap] at this
      exact this hbig
    · exfalso
      have := h.1
      rw [hf.1, hf.2.1] at this
      exact this hgt
  have hfatal : (write cfg inp s).fatal = some "Too much per-proc info for dump" := by
    rw [write_fatal_eq, hcase.1]
  have hev : (write cfg inp s).events =
      (write_sizes cfg inp (write_box inp s)).2
        ++ [Event.errorAll "Too much per-proc info for dump"] := by
    rw [write_events_eq, hcase.1, hcase.2]
    simp
  refine ⟨by unfold MAXSMALLINT; norm_num, hwrap, hfatal, ?_, ?_, ?_⟩
  · rw [hev]
    simp
  · intro b hb
    rw [hev] at hb
    rcases List.mem_append.mp hb with h | h
    · have := write_sizes_events cfg inp _ _ h
      simp at this
    · simp at h
  · intro e he
    rw [hev] at he
    rcases List.mem_append.mp he with h | h
    · rcases write_sizes_events cfg inp _ e h with h | ⟨_, h⟩ | ⟨_, h⟩ | ⟨_, h⟩ | ⟨_, _, h⟩ <;>
        rw [h] <;> rfl
    · rw [List.mem_singleton.mp h]
      rfl

/-- Witness of C13: after one ordinary step, a step with 400000000 rows of 7
columns on rank 0 exceeds the bound. -/
theorem write_capacity_error_witness :
    (write (scenarioConfig 0 0 7) { scenarioStep 2 with counts := [400000000, 5] }
      (writes (scenarioConfig 0 0 7) [scenarioStep 1] fresh).state).fatal
      = some "Too much per-proc info for dump" :=
  (write_capacity_error (scenarioConfig 0 0 7) [scenarioStep 1]
    { scenarioStep 2 with counts := [400000000, 5] }
    (by decide) (by decide) (by unfold IntCounts; decide) (by unfold IntCounts; decide)
    (by decide)).2.2.1

/-! ## C14: the collective calls of two ranks -/

theorem collectives_append (a b : List Event) :
    collectives (a ++ b) = collectives a ++ collectives b := by
  unfold collectives
  exact List.filterMap_append a b _

theorem collectives_eq_nil (l : List Event) (h : ∀ e ∈ l, e.collective = none) :
    collectives l = [] := by
  unfold collectives
  rw [List.filterMap_eq_nil_iff]
  exact h

theorem collectives_write_sizes (cfg : Config) (inp : StepInput) (s : DumpState) :
    collectives (write_sizes cfg inp s).2 = [Collective.Allreduce, Collective.Scan] := by
  unfold write_sizes
  rfl

theorem collectives_write_pack (cfg : Config) (s : DumpState) :
    collectives (write_pack cfg s).2 = [] := by
  apply collectives_eq_nil
  intro e he
  rcases write_pack_events cfg s e he with h | h | h | h | h <;> rw [h] <;> rfl

theorem collectives_puts (l : List Event) (h : ∀ e ∈ l, ∃ n v, e = Event.Put n v) :
    collectives l = [] := by
  apply collectives_eq_nil
  intro e he
  obtain ⟨n, v, hv⟩ := h e he
  rw [hv]
  rfl

theorem collectives_write_step (cfg : Config) (inp : StepInput) (s : DumpState) :
    collectives (write_step cfg inp s).2 =
      [Collective.BeginStep, Collective.EndStep]
        ++ (if cfg.multifile ≠ 0 then [Collective.Close] else []) := by
  have h1 := collectives_puts _ (singletonPuts_events cfg inp s)
  have h2 := collectives_puts _ (dimensionPuts_events cfg inp s)
  unfold write_step
  dsimp only
  split_ifs <;> simp only [collectives_append, h1, h2] <;> rfl

/-- The collective calls of a `write()` that returns depend only on the file mode
and on `singlefile_opened`, not on the rank or its local count. -/
theorem write_collectives_of_returns (cfg : Config) (inp : StepInput) (s : DumpState)
    (hok : (write cfg inp s).fatal = none) :
    collectives (write cfg inp s).events =
      [Collective.Allreduce, Collective.Scan]
        ++ (if cfg.multifile ≠ 0 then [Collective.Open]
            else if s.singlefile_opened = 0 then [Collective.Open] else [])
        ++ [Collective.BeginStep, Collective.EndStep]
        ++ (if cfg.multifile ≠ 0 then [Collective.Close] else []) := by
  obtain ⟨hb, ho, _⟩ := write_returns_state cfg inp s hok
  obtain ⟨hoe, _, _⟩ := openfile_returns cfg inp _ ho
  rw [(atOpenfile_fields cfg inp s).2] at hoe
  have hbuf : collectives (write_buffer cfg (atBufferCheck cfg inp s)).events = [] := by
    rcases write_buffer_cases cfg (atBufferCheck cfg inp s) with h | h | h
    · rw [h.2.2.1] at hb
      simp at hb
    · obtain ⟨_, _, _, _, _, rest, hev, hrest⟩ := h
      rw [hev, collectives_append, hrest, collectives_write_pack]
      rfl
    · rw [h.2.2.2.2, collectives_write_pack]
  rw [write_events_eq, hb]
  dsimp only
  rw [ho]
  dsimp only
  simp only [collectives_append, collectives_write_sizes, hbuf, collectives_write_step, hoe]
  split_ifs <;> rfl

/-- C14, evaluated on the code: in one step of a two-rank world with local counts
400000000 and 5 and 7 columns, both ranks fresh and in the same file mode, rank 0
fails the size check under its local guard `nme > maxbuf` and issues the
collective `error->all` after the reduction and the scan, while rank 1 passes it
and goes on to `Open`, `BeginStep` and `EndStep`: the two sequences of
collective calls differ. -/
theorem collectives_differ_between_ranks :
    collectives (write (scenarioConfig 0 0 7)
        { scenarioStep 1 with counts := [400000000, 5] } fresh).events
      = [Collective.Allreduce, Collective.Scan, Collective.errorAll] ∧
    collectives (write (scenarioConfig 1 0 7)
        { scenarioStep 1 with counts := [400000000, 5] } fresh).events
      = [Collective.Allreduce, Collective.Scan, Collective.Open, Collective.BeginStep,
         Collective.EndStep] ∧
    collectives (write (scenarioConfig 0 0 7)
        { scenarioStep 1 with counts := [400000000, 5] } fresh).events
      ≠ collectives (write (scenarioConfig 1 0 7)
        { scenarioStep 1 with counts := [400000000, 5] } fresh).events := by
  decide

/-! ## C15: the order of the protocol stages -/

/-- Two ordered runs of calls, the first below and the second above a stage `m`,
are ordered when put one after the other. -/
theorem inStageOrder_append (stage : Event → Nat) (l1 l2 : List Event) (m : Nat)
    (h1 : InStageOrder stage l1) (h2 : InStageOrder stage l2)
    (hb1 : ∀ e ∈ l1, stage e ≤ m) (hb2 : ∀ e ∈ l2, m ≤ stage e) :
    InStageOrder stage (l1 ++ l2) := by
  unfold InStageOrder at h1 h2 ⊢
  rw [List.map_append, List.pairwise_append]
  refine ⟨h1, h2, ?_⟩
  intro a ha b hb
  obtain ⟨x, hx, rfl⟩ := List.mem_map.mp ha
  obtain ⟨y, hy, rfl⟩ := List.mem_map.mp hb
  exact le_trans (hb1 x hx) (hb2 y hy)

theorem inStageOrder_const (stage : Event → Nat) (l : List Event) (m : Nat)
    (h : ∀ e ∈ l, stage e = m) : InStageOrder stage l := by
  unfold InStageOrder
  rw [List.pairwise_map]
  induction l with
  | nil => exact List.Pairwise.nil
  | cons a t ih =>
    refine List.Pairwise.cons ?_ (ih (fun e he => h e (List.mem_cons_of_mem _ he)))
    intro b hb
    rw [h a (List.mem_cons_self _ _), h b (List.mem_cons_of_mem _ hb)]

theorem codeStage_write_sizes (cfg : Config) (inp : StepInput) (s : DumpState) :
    InStageOrder Event.codeStage (write_sizes cfg inp s).2 ∧
    ∀ e ∈ (write_sizes cfg inp s).2, e.codeStage ≤ 25 := by
  unfold write_sizes InStageOrder
  dsimp only
  constructor
  · simp [Event.codeStage, Event.specStage]
  · intro e he
    simp at he
    rcases he with h | h | h | h | h <;> rw [h] <;> simp [Event.codeStage, Event.specStage]

theorem codeStage_write_pack (cfg : Config) (s : DumpState) :
    InStageOrder Event.codeStage (write_pack cfg s).2 ∧
    ∀ e ∈ (write_pack cfg s).2, 30 ≤ e.codeStage ∧ e.codeStage ≤ 32 := by
  constructor
  · unfold write_pack InStageOrder
    dsimp only
    split_ifs <;> simp [Event.codeStage, Event.specStage]
  · intro e he
    rcases write_pack_events cfg s e he with h | h | h | h | h <;> rw [h] <;>
      simp [Event.codeStage, Event.specStage]

theorem codeStage_write_buffer (cfg : Config) (s : DumpState) :
    InStageOrder Event.codeStage (write_buffer cfg s).events ∧
    ∀ e ∈ (write_buffer cfg s).events, 30 ≤ e.codeStage ∧ e.codeStage ≤ 32 := by
  rcases write_buffer_cases cfg s with h | h | h
  · rw [h.2.2.2.1]
    constructor
    · unfold InStageOrder
      simp
    · intro e he
      rw [List.mem_singleton.mp he]
      simp [Event.codeStage, Event.specStage]
  · obtain ⟨_, _, _, _, _, rest, hev, hrest⟩ := h
    rw [hev, hrest]
    have hp := codeStage_write_pack cfg
      { s with maxbuf := s.nme, buf := (wrapInt (s.nme * cfg.size_one)).toNat }
    have hall : ∀ e ∈ [Event.destroyBuf, Event.createBuf (wrapInt (s.nme * cfg.size_one))],
        e.codeStage = 30 := by
      intro e he
      simp at he
      rcases he with h | h <;> rw [h] <;> rfl
    constructor
    · exact inStageOrder_append _ _ _ 30 (inStageOrder_const _ _ 30 hall) hp.1
        (fun e he => le_of_eq (hall e he)) (fun e he => (hp.2 e he).1)
    · intro e he
      rcases List.mem_append.mp he with h | h
      · rw [hall e h]
        omega
      · exact hp.2 e h
  · rw [h.2.2.2.2]
    exact codeStage_write_pack cfg s

theorem codeStage_openfile (cfg : Config) (inp : StepInput) (s : DumpState) :
    ∀ e ∈ (openfile cfg inp s).events, e.codeStage = 40 := by
  intro e he
  rcases openfile_events cfg inp s e he with ⟨_, _, h⟩ | ⟨_, h⟩ <;> rw [h] <;> rfl

theorem codeStage_singletonPuts (cfg : Config) (inp : StepInput) (s : DumpState) :
    ∀ e ∈ singletonPuts cfg inp s, e.codeStage = 60 := by
  unfold singletonPuts
  split_ifs <;> simp [Event.codeStage, Event.specStage, singletonNames]

theorem codeStage_dimensionPuts (cfg : Config) (inp : StepInput) (s : DumpState) :
    InStageOrder Event.codeStage (dimensionPuts cfg inp s) ∧
    ∀ e ∈ dimensionPuts cfg inp s, 70 ≤ e.codeStage ∧ e.codeStage ≤ 90 := by
  unfold dimensionPuts InStageOrder
  constructor
  · simp [Event.codeStage, Event.specStage, singletonNames]
  · intro e he
    simp at he
    rcases he with h | h | h | h | h <;> rw [h] <;>
      simp [Event.codeStage, Event.specStage, singletonNames]

/-- Ordered runs of calls within adjoining stage ranges are ordered when put one
after the other. -/
theorem stageRange_append (stage : Event → Nat) (l1 l2 : List Event) (a m b : Nat)
    (ham : a ≤ m) (hmb : m ≤ b)
    (h1 : InStageOrder stage l1 ∧ ∀ e ∈ l1, a ≤ stage e ∧ stage e ≤ m)
    (h2 : InStageOrder stage l2 ∧ ∀ e ∈ l2, m ≤ stage e ∧ stage e ≤ b) :
    InStageOrder stage (l1 ++ l2) ∧ ∀ e ∈ l1 ++ l2, a ≤ stage e ∧ stage e ≤ b := by
  refine ⟨inStageOrder_append stage l1 l2 m h1.1 h2.1 (fun e he => (h1.2 e he).2)
    (fun e he => (h2.2 e he).1), ?_⟩
  intro e he
  rcases List.mem_append.mp he with h | h
  · have := h1.2 e h
    omega
  · have := h2.2 e h
    omega

theorem stageRange_const (stage : Event → Nat) (l : List Event) (m : Nat)
    (h : ∀ e ∈ l, stage e = m) :
    InStageOrder stage l ∧ ∀ e ∈ l, m ≤ stage e ∧ stage e ≤ m :=
  ⟨inStageOrder_const stage l m h, fun e he => by rw [h e he]; omega⟩

theorem stageRange_widen (stage : Event → Nat) (l : List Event) (a b c d : Nat)
    (hca : c ≤ a) (hbd : b ≤ d)
    (h : InStageOrder stage l ∧ ∀ e ∈ l, a ≤ stage e ∧ stage e ≤ b) :
    InStageOrder stage l ∧ ∀ e ∈ l, c ≤ stage e ∧ stage e ≤ d :=
  ⟨h.1, fun e he => by have := h.2 e he; omega⟩

theorem codeStage_write_step (cfg : Config) (inp : StepInput) (s : DumpState) :
    InStageOrder Event.codeStage (write_step cfg inp s).2 ∧
    ∀ e ∈ (write_step cfg inp s).2, 50 ≤ e.codeStage ∧ e.codeStage ≤ 110 := by
  have hb : ∀ e ∈ [Event.BeginStep], e.codeStage = 50 := by simp [Event.codeStage, Event.specStage]
  have he : ∀ e ∈ [Event.EndStep], e.codeStage = 100 := by simp [Event.codeStage, Event.specStage]
  have hc : ∀ e ∈ [Event.Close], e.codeStage = 110 := by simp [Event.codeStage, Event.specStage]
  have h1 := stageRange_append Event.codeStage _ _ 50 50 60 (by omega) (by omega)
    (stageRange_const _ _ 50 hb)
    (stageRange_widen _ _ 60 60 50 60 (by omega) (by omega)
      (stageRange_const _ _ 60 (codeStage_singletonPuts cfg inp s)))
  have h2 := stageRange_append Event.codeStage _ _ 50 60 90 (by omega) (by omega) h1
    (stageRange_widen _ _ 70 90 60 90 (by omega) (by omega) (codeStage_dimensionPuts cfg inp s))
  have h3 := stageRange_append Event.codeStage _ _ 50 90 100 (by omega) (by omega) h2
    (stageRange_widen _ _ 100 100 90 100 (by omega) (by omega) (stageRange_const _ _ 100 he))
  unfold write_step
  dsimp only
  split_ifs
  · exact stageRange_append Event.codeStage _ _ 50 100 110 (by omega) (by omega) h3
      (stageRange_widen _ _ 110 110 100 110 (by omega) (by omega) (stageRange_const _ _ 110 hc))
  · exact stageRange_widen _ _ 50 100 50 110 (by omega) (by omega) h3

/-- The calls of every `write()`, returning or not, are in the stage order of the
code. -/
theorem write_in_code_stage_order (cfg : Config) (inp : StepInput) (s : DumpState) :
    InStageOrder Event.codeStage (write cfg inp s).events := by
  have hs : InStageOrder Event.codeStage (write_sizes cfg inp (write_box inp s)).2 ∧
      ∀ e ∈ (write_sizes cfg inp (write_box inp s)).2, 0 ≤ e.codeStage ∧ e.codeStage ≤ 25 :=
    ⟨(codeStage_write_sizes cfg inp _).1,
     fun e he => ⟨by omega, (codeStage_write_sizes cfg inp _).2 e he⟩⟩
  have h1 := stageRange_append Event.codeStage _ _ 0 25 32 (by omega) (by omega) hs
    (stageRange_widen _ _ 30 32 25 32 (by omega) (by omega)
      (codeStage_write_buffer cfg (atBufferCheck cfg inp s)))
  have ho := stageRange_widen _ _ 40 40 32 40 (by omega) (by omega)
    (stageRange_const _ _ 40 (codeStage_openfile cfg inp (atOpenfile cfg inp s)))
  have h2 := stageRange_append Event.codeStage _ _ 0 32 40 (by omega) (by omega) h1 ho
  rw [write_events_eq]
  split
  · simpa using h1.1
  · split
    · simpa using h2.1
    · rw [← List.append_assoc]
      exact (stageRange_append Event.codeStage _ _ 0 40 110 (by omega) (by omega) h2
        (stageRange_widen _ _ 50 110 40 110 (by omega) (by omega)
          (codeStage_write_step cfg inp _))).1

theorem write_buffer_packs (cfg : Config) (s : DumpState)
    (hok : (write_buffer cfg s).fatal = none) :
    ∃ b, Event.pack b ∈ (write_buffer cfg s).events := by
  rcases write_buffer_cases cfg s with h | h | h
  · rw [h.2.2.1] at hok
    simp at hok
  · obtain ⟨_, _, _, _, _, rest, hev, hrest⟩ := h
    obtain ⟨b, hb⟩ := write_pack_packs cfg
      { s with maxbuf := s.nme, buf := (wrapInt (s.nme * cfg.size_one)).toNat }
    refine ⟨b, ?_⟩
    rw [hev, hrest]
    exact List.mem_append_right _ hb
  · obtain ⟨b, hb⟩ := write_pack_packs cfg s
    refine ⟨b, ?_⟩
    rw [h.2.2.2.2]
    exact hb

/-- The box fields are resolved before the first point at which `write()` can end. -/
theorem write_box_resolved (cfg : Config) (inp : StepInput) (s : DumpState) :
    (atBufferCheck cfg inp s).boxxlo = (if inp.triclinic = 0 then inp.boxlo.1 else inp.boxlo_bound.1) ∧
    (atBufferCheck cfg inp s).boxxhi = (if inp.triclinic = 0 then inp.boxhi.1 else inp.boxhi_bound.1) ∧
    (atBufferCheck cfg inp s).boxylo = (if inp.triclinic = 0 then inp.boxlo.2.1 else inp.boxlo_bound.2.1) ∧
    (atBufferCheck cfg inp s).boxyhi = (if inp.triclinic = 0 then inp.boxhi.2.1 else inp.boxhi_bound.2.1) ∧
    (atBufferCheck cfg inp s).boxzlo = (if inp.triclinic = 0 then inp.boxlo.2.2 else inp.boxlo_bound.2.2) ∧
    (atBufferCheck cfg inp s).boxzhi = (if inp.triclinic = 0 then inp.boxhi.2.2 else inp.boxhi_bound.2.2) := by
  unfold atBufferCheck write_sizes write_box
  dsimp only
  split_ifs <;> simp

/-- The stages that a returning `write()` passes through. -/
theorem write_stages_visited (cfg : Config) (inp : StepInput) (s : DumpState)
    (hok : (write cfg inp s).fatal = none) :
    Event.count ∈ (write cfg inp s).events ∧
    (∃ sh, Event.SetShape sh ∈ (write cfg inp s).events) ∧
    (∃ b, Event.pack b ∈ (write cfg inp s).events) ∧
    Event.BeginStep ∈ (write cfg inp s).events ∧
    (∃ v, Event.Put "natoms" v ∈ (write cfg inp s).events) ∧
    (∃ v, Event.Put "atoms" v ∈ (write cfg inp s).events) ∧
    Event.EndStep ∈ (write cfg inp s).events ∧
    (cfg.multifile ≠ 0 → (write cfg inp s).events.getLast? = some Event.Close) ∧
    (cfg.multifile = 0 → Event.Close ∉ (write cfg inp s).events) := by
  obtain ⟨hb, ho, _⟩ := write_returns_state cfg inp s hok
  obtain ⟨b, hpack⟩ := write_buffer_packs cfg _ hb
  have hev : (write cfg inp s).events =
      (write_sizes cfg inp (write_box inp s)).2
        ++ (write_buffer cfg (atBufferCheck cfg inp s)).events
        ++ ((openfile cfg inp (atOpenfile cfg inp s)).events
          ++ (write_step cfg inp (openfile cfg inp (atOpenfile cfg inp s)).state).2) := by
    rw [write_events_eq, hb]
    dsimp only
    rw [ho]
  have hstep : ∀ e, e ∈ (write_step cfg inp (openfile cfg inp (atOpenfile cfg inp s)).state).2 →
      e ∈ (write cfg inp s).events := by
    intro e he
    rw [hev]
    exact List.mem_append_right _ (List.mem_append_right _ he)
  have hsizes : ∀ e, e ∈ (write_sizes cfg inp (write_box inp s)).2 →
      e ∈ (write cfg inp s).events := by
    intro e he
    rw [hev]
    exact List.mem_append_left _ (List.mem_append_left _ he)
  refine ⟨hsizes _ ?_,
    ⟨[toSizeT (globalTotal inp), toSizeT cfg.size_one], hsizes _ ?_⟩, ⟨b, ?_⟩, hstep _ ?_,
    ⟨Value.u64 (toSizeT (openfile cfg inp (atOpenfile cfg inp s)).state.ntotal), hstep _ ?_⟩,
    ⟨Value.rows (openfile cfg inp (atOpenfile cfg inp s)).state.buf, hstep _ ?_⟩,
    hstep _ ?_, ?_, ?_⟩
  · unfold write_sizes
    simp
  · unfold write_sizes
    simp
  · rw [hev]
    exact List.mem_append_left _ (List.mem_append_right _ hpack)
  · unfold write_step
    dsimp only
    split_ifs <;> simp
  · unfold write_step dimensionPuts
    dsimp only
    split_ifs <;> simp
  · unfold write_step dimensionPuts
    dsimp only
    split_ifs <;> simp
  · unfold write_step
    dsimp only
    split_ifs <;> simp
  · intro hm
    rw [hev]
    unfold write_step
    dsimp only
    rw [if_pos hm]
    dsimp only
    simp only [← List.append_assoc]
    exact List.getLast?_concat _
  · intro hm hclose
    have hfc := (write_file_calls cfg inp s hok).1
    have hm2 : ¬ cfg.multifile ≠ 0 := by simpa using hm
    rw [if_neg hm2] at hfc
    have hmem : Event.Close ∈ fileCalls (write cfg inp s).events := by
      unfold fileCalls
      exact List.mem_filter.mpr ⟨hclose, rfl⟩
    rw [hfc] at hmem
    split_ifs at hmem <;> simp at hmem

/-- C15 as stated fails: in the step-100 write of rank 0 in per-step mode the
calls are not in the order of the specification, because the shape and the
selection of the array variable are set right after the sizes are known, before
the buffer, the file, `BeginStep` and the scalars. -/
theorem spec_stage_order_fails :
    ¬ InStageOrder Event.specStage
      (write (scenarioConfig 0 1 7) (scenarioStep 100) fresh).events := by
  unfold InStageOrder
  decide

/-- C15, amended: every `write()` issues its calls in the order: sizes (count,
reduction, scan), shape and selection of the array variable, buffer capacity,
pack, sort, file handle, begin step, singleton scalars, dimension scalars,
payload, end step, close; the box bounds are resolved before the first call at
which `write()` can end. A `write()` that returns passes through the sizes, the
shape, `pack`, `BeginStep`, the dimension scalars, the payload and `EndStep`,
and its last call is `Close` exactly in per-step mode. -/
theorem write_stage_order (cfg : Config) (inp : StepInput) (s : DumpState) :
    InStageOrder Event.codeStage (write cfg inp s).events ∧
    (atBufferCheck cfg inp s).boxxlo
      = (if inp.triclinic = 0 then inp.boxlo.1 else inp.boxlo_bound.1) ∧
    (atBufferCheck cfg inp s).boxzhi
      = (if inp.triclinic = 0 then inp.boxhi.2.2 else inp.boxhi_bound.2.2) ∧
    ((write cfg inp s).fatal = none →
      Event.count ∈ (write cfg inp s).events ∧
      (∃ sh, Event.SetShape sh ∈ (write cfg inp s).events) ∧
      (∃ b, Event.pack b ∈ (write cfg inp s).events) ∧
      Event.BeginStep ∈ (write cfg inp s).events ∧
      (∃ v, Event.Put "natoms" v ∈ (write cfg inp s).events) ∧
      (∃ v, Event.Put "atoms" v ∈ (write cfg inp s).events) ∧
      Event.EndStep ∈ (write cfg inp s).events ∧
      (cfg.multifile ≠ 0 → (write cfg inp s).events.getLast? = some Event.Close) ∧
      (cfg.multifile = 0 → Event.Close ∉ (write cfg inp s).events)) :=
  ⟨write_in_code_stage_order cfg inp s, (write_box_resolved cfg inp s).1,
   (write_box_resolved cfg inp s).2.2.2.2.2, write_stages_visited cfg inp s⟩

/-- Witness of C15: the step-100 write of rank 0 in per-step mode ends with
`Close`. -/
theorem write_stage_order_witness :
    InStageOrder Event.codeStage
      (write (scenarioConfig 0 1 7) (scenarioStep 100) fresh).events ∧
    (write (scenarioConfig 0 1 7) (scenarioStep 100) fresh).events.getLast?
      = some Event.Close :=
  ⟨(write_stage_order (scenarioConfig 0 1 7) (scenarioStep 100) fresh).1,
   ((write_stage_order (scenarioConfig 0 1 7) (scenarioStep 100) fresh).2.2.2
      (by decide)).2.2.2.2.2.2.2.1 (by decide)⟩

/-! ## C16, C17: the file name after `init_style()` -/


theorem getElem?_append_cons (pre : List Char) (x : Char) (t : List Char) :
    (pre ++ x :: t)[pre.length]? = some x := by
  induction pre with
  | nil => simp
  | cons a l ih => simpa using ih

theorem getElem?_append_cons_succ (pre : List Char) (x y : Char) (t : List Char) :
    (pre ++ x :: y :: t)[pre.length + 1]? = some y := by
  induction pre with
  | nil => simp
  | cons a l ih => simpa using ih

theorem set_append_cons (pre : List Char) (x d : Char) (t : List Char) :
    (pre ++ x :: t).set pre.length d = pre ++ d :: t := by
  induction pre with
  | nil => rfl
  | cons a l ih => simp [ih]

/-- The loop started at a character `c` of a C string moves the rest of the
string, with its `NUL`, one place to the left and leaves the memory after the
original `NUL` as it is. -/
theorem shiftLeft_cstring (post : List Char) :
    ∀ (fuel : Nat) (pre : List Char) (c : Char) (rest : List Char),
      c ≠ NUL → NUL ∉ post → post.length + 2 ≤ fuel →
      shiftLeft fuel (pre ++ c :: (post ++ NUL :: rest)) pre.length
        = some (pre ++ (post ++ NUL :: NUL :: rest)) := by
  induction post with
  | nil =>
    intro fuel pre c rest hc _ hfuel
    obtain ⟨f, rfl⟩ : ∃ f, fuel = f + 2 := ⟨fuel - 2, by simp at hfuel; omega⟩
    simp only [List.nil_append]
    rw [shiftLeft, getElem?_append_cons]
    simp only [hc, if_false]
    rw [getElem?_append_cons_succ]
    simp only
    rw [set_append_cons]
    have h2 : (pre ++ NUL :: NUL :: rest)[pre.length + 1]? = some NUL :=
      getElem?_append_cons_succ pre NUL NUL rest
    rw [shiftLeft, h2]
    simp
  | cons d post ih =>
    intro fuel pre c rest hc hpost hfuel
    have hd : d ≠ NUL := fun e => hpost (e ▸ List.mem_cons_self _ _)
    have hpost2 : NUL ∉ post := fun m => hpost (List.mem_cons_of_mem _ m)
    obtain ⟨f, rfl⟩ : ∃ f, fuel = f + 1 := ⟨fuel - 1, by simp at hfuel; omega⟩
    simp only [List.cons_append]
    rw [shiftLeft, getElem?_append_cons]
    simp only [hc, if_false]
    rw [getElem?_append_cons_succ]
    simp only
    rw [set_append_cons]
    have h := ih f (pre ++ [d]) d rest hd hpost2 (by simp at hfuel ⊢; omega)
    simp only [List.append_assoc, List.singleton_append, List.length_append,
      List.length_singleton] at h
    exact h

theorem strchr_none (name rest : List Char) (c : Char) (hc : c ∉ name) (hcn : c ≠ NUL) :
    strchr (name ++ NUL :: rest) c = none := by
  induction name with
  | nil =>
    have h : NUL ≠ c := fun e => hcn e.symm
    simp [strchr, h]
  | cons a t ih =>
    have ha : a ≠ c := fun e => hc (e ▸ List.mem_cons_self _ _)
    have ht : c ∉ t := fun m => hc (List.mem_cons_of_mem _ m)
    rw [List.cons_append, strchr, if_neg ha, ih ht]
    split <;> rfl

theorem strchr_first (pre t : List Char) (c : Char) (hc : c ∉ pre) (hnul : NUL ∉ pre) :
    strchr (pre ++ c :: t) c = some pre.length := by
  induction pre with
  | nil => simp [strchr]
  | cons a l ih =>
    have ha : a ≠ c := fun e => hc (e ▸ List.mem_cons_self _ _)
    have ha2 : a ≠ NUL := fun e => hnul (e ▸ List.mem_cons_self _ _)
    have hl : c ∉ l := fun m => hc (List.mem_cons_of_mem _ m)
    have hl2 : NUL ∉ l := fun m => hnul (List.mem_cons_of_mem _ m)
    rw [List.cons_append, strchr, if_neg ha, if_neg ha2, ih hl hl2]
    rfl

theorem cstring_append_NUL (name rest : List Char) (hnul : NUL ∉ name) :
    cstring (name ++ NUL :: rest) = name := by
  unfold cstring
  induction name with
  | nil => simp [List.takeWhile_cons]
  | cons a t ih =>
    have ha : a ≠ NUL := fun e => hnul (e ▸ List.mem_cons_self _ _)
    have ht : NUL ∉ t := fun m => hnul (List.mem_cons_of_mem _ m)
    simp [List.takeWhile_cons, ha, ih ht]

/-- The first occurrence of a character of a list. -/
theorem exists_first_occurrence (c : Char) (l : List Char) (h : c ∈ l) :
    ∃ pre post, l = pre ++ c :: post ∧ c ∉ pre := by
  induction l with
  | nil => simp at h
  | cons a t ih =>
    by_cases ha : a = c
    · exact ⟨[], t, by rw [ha]; rfl, by simp⟩
    · have ht : c ∈ t := by
        rcases List.mem_cons.mp h with e | m
        · exact absurd e.symm ha
        · exact m
      obtain ⟨pre, post, hl, hpre⟩ := ih ht
      refine ⟨a :: pre, post, by rw [hl]; rfl, ?_⟩
      intro m
      rcases List.mem_cons.mp m with e | m
      · exact ha e.symm
      · exact hpre m

/-- What lines 115-121 do to a file name without `'%'`. -/
theorem removePercent_absent (name rest : List Char) (hp : '%' ∉ name) :
    removePercent (name ++ NUL :: rest) = some (name ++ NUL :: rest) := by
  unfold removePercent
  rw [strchr_none name rest '%' hp (by decide)]

/-- What lines 115-121 do to a file name whose first `'%'` stands between `pre`
and `post`. -/
theorem removePercent_first (pre post rest : List Char) (hp : '%' ∉ pre)
    (hnul1 : NUL ∉ pre) (hnul2 : NUL ∉ post) :
    removePercent (pre ++ '%' :: post ++ NUL :: rest)
      = some (pre ++ post ++ NUL :: NUL :: rest) := by
  unfold removePercent
  have e : pre ++ '%' :: post ++ NUL :: rest = pre ++ '%' :: (post ++ NUL :: rest) := by simp
  rw [e, strchr_first pre _ '%' hp hnul1]
  simp only
  rw [shiftLeft_cstring post _ pre '%' rest (by decide) hnul2 (by simp; omega)]
  simp

/-- C16 as stated fails: the file name "a%b%c" becomes "ab%c", which still
contains `'%'`. -/
theorem percent_remains_in_filename :
    removePercent ("a%b%c".toList ++ [NUL]) = some ("ab%c".toList ++ [NUL, NUL]) ∧
    '%' ∈ cstring ("ab%c".toList ++ [NUL, NUL]) := by
  decide

/-- C16, amended: `init_style()` removes the first `'%'` of the dump file name:
for every file name the loop ends with a name that holds one `'%'` fewer, so the
name contains no `'%'` afterwards when the original held at most one. -/
theorem removePercent_removes_one (name rest : List Char) (hnul : NUL ∉ name) :
    ∃ out, removePercent (name ++ NUL :: rest) = some out ∧
      (cstring out).count '%' = name.count '%' - 1 ∧
      (name.count '%' ≤ 1 → '%' ∉ cstring out) := by
  have key : ∃ out, removePercent (name ++ NUL :: rest) = some out ∧
      (cstring out).count '%' = name.count '%' - 1 := by
    by_cases hp : '%' ∈ name
    · obtain ⟨pre, post, hname, hpre⟩ := exists_first_occurrence '%' name hp
      have hnul1 : NUL ∉ pre := fun m => hnul (by rw [hname]; exact List.mem_append_left _ m)
      have hnul2 : NUL ∉ post := fun m =>
        hnul (by rw [hname]; exact List.mem_append_right _ (List.mem_cons_of_mem _ m))
      have hnul3 : NUL ∉ pre ++ post := fun m =>
        (List.mem_append.mp m).elim hnul1 hnul2
      refine ⟨pre ++ post ++ NUL :: NUL :: rest, ?_, ?_⟩
      · rw [hname]
        exact removePercent_first pre post rest hpre hnul1 hnul2
      · rw [cstring_append_NUL _ _ hnul3, hname]
        simp [List.count_append, List.count_cons]
    · refine ⟨name ++ NUL :: rest, removePercent_absent name rest hp, ?_⟩
      rw [cstring_append_NUL _ _ hnul, List.count_eq_zero_of_not_mem hp]
  obtain ⟨out, h1, h2⟩ := key
  refine ⟨out, h1, h2, ?_⟩
  intro hone
  have h0 : (cstring out).count '%' = 0 := by omega
  exact List.count_eq_zero.mp h0

/-- Witness of C16, amended: the name "dump.%.bp" holds one `'%'`. -/
theorem removePercent_removes_one_witness :
    ∃ out, removePercent ("dump.%.bp".toList ++ NUL :: []) = some out ∧
      (cstring out).count '%' = "dump.%.bp".toList.count '%' - 1 ∧
      ("dump.%.bp".toList.count '%' ≤ 1 → '%' ∉ cstring out) :=
  removePercent_removes_one "dump.%.bp".toList [] (by decide)

/-- C17: on a file name without `'%'` lines 115-121 change nothing. On a file name
whose first `'%'` stands between `pre` and `post` the loop ends (no read outside
the string and its `NUL`) and leaves `pre` followed by `post`: the first `'%'` is
deleted, every other character, a later `'%'` included, keeps its order, the
length is one less, the new `NUL` stands one place before the original one, and
the memory from the original `NUL` on (`NUL :: rest`) is as it was. -/
theorem removePercent_deletes_first (name rest : List Char) (hnul : NUL ∉ name) :
    ('%' ∉ name →
      removePercent (name ++ NUL :: rest) = some (name ++ NUL :: rest) ∧
      cstring (name ++ NUL :: rest) = name) ∧
    (∀ pre post, name = pre ++ '%' :: post → '%' ∉ pre →
      removePercent (name ++ NUL :: rest) = some ((pre ++ post) ++ NUL :: (NUL :: rest)) ∧
      cstring ((pre ++ post) ++ NUL :: (NUL :: rest)) = pre ++ post ∧
      (pre ++ post).length + 1 = name.length) := by
  constructor
  · intro hp
    exact ⟨removePercent_absent name rest hp, cstring_append_NUL name rest hnul⟩
  · intro pre post hname hpre
    have hnul1 : NUL ∉ pre := fun m => hnul (by rw [hname]; exact List.mem_append_left _ m)
    have hnul2 : NUL ∉ post := fun m =>
      hnul (by rw [hname]; exact List.mem_append_right _ (List.mem_cons_of_mem _ m))
    have hnul3 : NUL ∉ pre ++ post := fun m => (List.mem_append.mp m).elim hnul1 hnul2
    refine ⟨?_, cstring_append_NUL _ _ hnul3, ?_⟩
    · rw [hname]
      exact removePercent_first pre post rest hpre hnul1 hnul2
    · rw [hname]
      simp only [List.length_append, List.length_cons]
      omega

/-- Witness of C17: in "a%b%c" only the first `'%'` goes. -/
theorem removePercent_deletes_first_witness :
    removePercent ("a%b%c".toList ++ NUL :: [])
      = some (("a".toList ++ "b%c".toList) ++ NUL :: (NUL :: [])) ∧
    cstring (("a".toList ++ "b%c".toList) ++ NUL :: (NUL :: [])) = "a".toList ++ "b%c".toList ∧
    ("a".toList ++ "b%c".toList).length + 1 = "a%b%c".toList.length :=
  (removePercent_deletes_first "a%b%c".toList [] (by decide)).2 "a".toList "b%c".toList
    (by decide) (by decide)

/-! ## C18: the column string -/

theorem string_append_ne_empty (a b : String) (hb : b ≠ "") : a ++ b ≠ "" := by
  intro h
  apply hb
  have h1 : (a ++ b).data = [] := by rw [h]
  rw [String.data_append] at h1
  exact String.ext (List.append_eq_nil.mp h1).2

/-- The loop of `combineColumns` appends the column entries one by one. -/
theorem combineColumns_eq (items keyword_user : List String) :
    ∀ (k : Nat) (combined : String), items.length + k ≤ keyword_user.length →
      combineColumns items keyword_user k combined
        = some (joinOnto combined (columnEntries items keyword_user k)) := by
  induction items with
  | nil =>
    intro k combined _
    rfl
  | cons item rest ih =>
    intro k combined hlen
    have hk : k < keyword_user.length := by
      simp only [List.length_cons] at hlen
      omega
    have hget : keyword_user[k]? = some (keyword_user.getD k "") := by
      rw [List.getD_eq_getElem _ _ hk, List.getElem?_eq_getElem hk]
    rw [combineColumns, hget]
    simp only
    rw [ih (k + 1) _ (by simp only [List.length_cons] at hlen; omega)]
    unfold joinOnto
    rw [columnEntries, List.foldl_cons]
    by_cases hkw : keyword_user.getD k "" ≠ ""
    · rw [if_pos hkw, if_pos hkw]
    · rw [if_neg hkw, if_neg hkw]

theorem joinOnto_nonempty (es : List String) (hes : ∀ e ∈ es, e ≠ "") :
    ∀ acc : String, acc ≠ "" →
      joinOnto acc es = if es = [] then acc else acc ++ " " ++ joinWithSpaces es := by
  induction es with
  | nil =>
    intro acc _
    rfl
  | cons e rest ih =>
    intro acc hacc
    have he : e ≠ "" := hes e (List.mem_cons_self _ _)
    have hrest : ∀ x ∈ rest, x ≠ "" := fun x hx => hes x (List.mem_cons_of_mem _ hx)
    have hstep : joinOnto acc (e :: rest) = joinOnto (acc ++ " " ++ e) rest := by
      unfold joinOnto
      rw [List.foldl_cons, if_pos hacc]
    rw [hstep, ih hrest _ (string_append_ne_empty _ _ he), if_neg (List.cons_ne_nil _ _)]
    cases rest with
    | nil => rfl
    | cons b rest2 =>
      rw [if_neg (List.cons_ne_nil _ _)]
      simp only [joinWithSpaces, String.append_assoc]

theorem joinOnto_empty (es : List String) (hes : ∀ e ∈ es, e ≠ "") :
    joinOnto "" es = joinWithSpaces es := by
  cases es with
  | nil => rfl
  | cons e rest =>
    have he : e ≠ "" := hes e (List.mem_cons_self _ _)
    have hrest : ∀ x ∈ rest, x ≠ "" := fun x hx => hes x (List.mem_cons_of_mem _ hx)
    have hstep : joinOnto "" (e :: rest) = joinOnto e rest := by
      unfold joinOnto
      rw [List.foldl_cons]
      simp
    rw [hstep, joinOnto_nonempty rest hrest e he]
    cases rest with
    | nil => rfl
    | cons b rest2 =>
      rw [if_neg (List.cons_ne_nil _ _)]
      rfl

theorem columnEntries_nonempty (items keyword_user : List String)
    (hne : ∀ i ∈ items, i ≠ "") :
    ∀ k, ∀ e ∈ columnEntries items keyword_user k, e ≠ "" := by
  induction items with
  | nil =>
    intro k e he
    simp [columnEntries] at he
  | cons item rest ih =>
    intro k e he
    rw [columnEntries] at he
    rcases List.mem_cons.mp he with h | h
    · rw [h]
      split
      · assumption
      · exact hne item (List.mem_cons_self _ _)
    · exact ih (fun i hi => hne i (List.mem_cons_of_mem _ hi)) (k + 1) e h

theorem columnEntries_default (items keyword_user : List String)
    (hno : ∀ kw ∈ keyword_user, kw = "") :
    ∀ k, columnEntries items keyword_user k = items := by
  induction items with
  | nil =>
    intro k
    rfl
  | cons item rest ih =>
    intro k
    have hk : keyword_user.getD k "" = "" := by
      by_cases h : k < keyword_user.length
      · rw [List.getD_eq_getElem _ _ h]
        exact hno _ (List.getElem_mem _)
      · rw [List.getD_eq_default _ _ (by omega)]
    rw [columnEntries, ih (k + 1), hk]
    simp

theorem joinWithSpaces_head (e : String) (rest : List String) (he : e ≠ "") :
    (joinWithSpaces (e :: rest)).data.head? = e.data.head? := by
  have hd : e.data ≠ [] := fun h => he (String.ext h)
  cases rest with
  | nil => rfl
  | cons b rest2 =>
    simp only [joinWithSpaces, String.data_append]
    cases hdata : e.data with
    | nil => exact absurd hdata hd
    | cons c cs => rfl

theorem joinWithSpaces_getLast (es : List String) (hes : ∀ e ∈ es, e ≠ "") :
    ∀ e, es.getLast? = some e → (joinWithSpaces es).data.getLast? = e.data.getLast? := by
  induction es with
  | nil =>
    intro e h
    simp at h
  | cons a rest ih =>
    intro e h
    cases rest with
    | nil =>
      simp at h
      rw [← h]
      rfl
    | cons b rest2 =>
      have hrest : ∀ x ∈ b :: rest2, x ≠ "" := fun x hx => hes x (List.mem_cons_of_mem _ hx)
      have hlast : (b :: rest2).getLast? = some e := by
        rw [List.getLast?_cons_cons] at h
        exact h
      have hih := ih hrest e hlast
      have hne : (joinWithSpaces (b :: rest2)).data ≠ [] := by
        intro hnil
        rw [hnil] at hih
        have he : e ≠ "" := hes e (List.mem_of_getLast?_eq_some h)
        have : e.data ≠ [] := fun h => he (String.ext h)
        cases hdata : e.data with
        | nil => exact this hdata
        | cons c cs =>
          rw [hdata] at hih
          exact List.cons_ne_nil c cs (List.getLast?_eq_none_iff.mp hih.symm)
      simp only [joinWithSpaces, String.data_append]
      rw [List.getLast?_append_of_ne_nil _ hne]
      exact hih

theorem columnEntries_length (items keyword_user : List String) :
    ∀ k, (columnEntries items keyword_user k).length = items.length := by
  induction items with
  | nil =>
    intro k
    rfl
  | cons item rest ih =>
    intro k
    rw [columnEntries, List.length_cons, List.length_cons, ih (k + 1)]

/-- C18 as stated fails: with the single default word "id" and the user keyword
" id" for column 0, the column string is " id", which begins with a space. -/
theorem column_string_leading_space :
    init_style_columns ["id"] [" id"] = some " id" ∧
    (" id" : String).data.head? = some ' ' := by
  decide

/-- C18, amended: for non-empty default words `items` and a user keyword per
column, the column string is the single-space-joined list, in order, of one
entry per default word, the entry of column `k` being `keyword_user[k]` when it
is non-empty and the `k`-th default word otherwise; it equals the default words
joined by single spaces when no user keyword is set; and its first character is
that of the first entry, its last character that of the last entry, so that the
loop itself puts no space before the first or after the last entry. -/
theorem init_style_columns_joined (items keyword_user : List String)
    (hlen : items.length ≤ keyword_user.length) (hne : ∀ i ∈ items, i ≠ "") :
    init_style_columns items keyword_user
      = some (joinWithSpaces (columnEntries items keyword_user 0)) ∧
    (columnEntries items keyword_user 0).length = items.length ∧
    ((∀ kw ∈ keyword_user, kw = "") →
      init_style_columns items keyword_user = some (joinWithSpaces items)) ∧
    (∀ e, (columnEntries items keyword_user 0).head? = some e →
      (joinWithSpaces (columnEntries items keyword_user 0)).data.head? = e.data.head?) ∧
    (∀ e, (columnEntries items keyword_user 0).getLast? = some e →
      (joinWithSpaces (columnEntries items keyword_user 0)).data.getLast?
        = e.data.getLast?) := by
  have hent := columnEntries_nonempty items keyword_user hne 0
  have hmain : init_style_columns items keyword_user
      = some (joinWithSpaces (columnEntries items keyword_user 0)) := by
    unfold init_style_columns
    rw [combineColumns_eq items keyword_user 0 "" (by omega), joinOnto_empty _ hent]
  refine ⟨hmain, columnEntries_length items keyword_user 0, ?_, ?_, ?_⟩
  · intro hno
    rw [hmain, columnEntries_default items keyword_user hno 0]
  · intro e he
    cases hce : columnEntries items keyword_user 0 with
    | nil =>
      rw [hce] at he
      simp at he
    | cons a rest =>
      rw [hce] at he hent
      simp only [List.head?_cons, Option.some.injEq] at he
      rw [← he]
      exact joinWithSpaces_head a rest (hent a (List.mem_cons_self _ _))
  · exact joinWithSpaces_getLast _ hent

/-- Witness of C18, amended: three columns, the second renamed by the user. -/
theorem init_style_columns_joined_witness :
    init_style_columns ["id", "type", "x"] ["", "kind", ""] = some "id kind x" :=
  (init_style_columns_joined ["id", "type", "x"] ["", "kind", ""]
    (by decide) (by decide)).1

/-! ## C12: unresolved references -/

/-- C12, evaluated on the code: an unknown compute ID "foo" and an unknown fix ID
"foo" each end `init_style()` with a message that contains "foo", but an unknown
variable name "foo" ends it with the message "Could not find dump custom/adios
variable name", which does not contain "foo". -/
theorem variable_error_omits_name :
    init_style_resolve emptyEnv { plainFields with id_compute := ["foo"] }
      = some "Could not find dump custom/adios compute ID foo" ∧
    init_style_resolve emptyEnv { plainFields with id_fix := ["foo"] }
      = some "Could not find dump custom/adios fix ID foo" ∧
    init_style_resolve emptyEnv { plainFields with id_variable := ["foo"] }
      = some "Could not find dump custom/adios variable name" ∧
    containsText "Could not find dump custom/adios compute ID foo".data "foo".data = true ∧
    containsText "Could not find dump custom/adios fix ID foo".data "foo".data = true ∧
    containsText "Could not find dump custom/adios variable name".data "foo".data = false := by
  decide

/-- The message for an unknown compute ends with the ID. -/
theorem resolveComputes_message (env : InitEnv) (ids : List String) (msg : String)
    (h : resolveComputes env ids = some msg) :
    ∃ id ∈ ids, id ∉ env.computes ∧
      msg = "Could not find dump custom/adios compute ID " ++ id := by
  induction ids with
  | nil => simp [resolveComputes] at h
  | cons id rest ih =>
    rw [resolveComputes] at h
    split at h
    · obtain ⟨i, hi, hx⟩ := ih h
      exact ⟨i, List.mem_cons_of_mem _ hi, hx⟩
    · rename_i hid
      exact ⟨id, List.mem_cons_self _ _, hid, (Option.some.inj h).symm⟩

/-- The message for an unknown variable is a fixed text, whatever the name. -/
theorem resolveVariables_message (env : InitEnv) (ids : List String) (msg : String)
    (h : resolveVariables env ids = some msg) :
    msg = "Could not find dump custom/adios variable name" ∧
    ∃ id ∈ ids, id ∉ env.variableNames := by
  induction ids with
  | nil => simp [resolveVariables] at h
  | cons id rest ih =>
    rw [resolveVariables] at h
    split at h
    · obtain ⟨hm, i, hi, hx⟩ := ih h
      exact ⟨hm, i, List.mem_cons_of_mem _ hi, hx⟩
    · rename_i hid
      exact ⟨(Option.some.inj h).symm, id, List.mem_cons_self _ _, hid⟩
/-! ## C11: declaring the schema twice -/

theorem schemaCalls_cons (env : InitEnv) (d : InitFields) :
    ∃ rest, schemaCalls env d = Decl.DeclareIO "custom" :: rest :=
  ⟨_, rfl⟩

theorem declaredNames_schemaCalls (env : InitEnv) (d : InitFields) :
    declaredNames (schemaCalls env d) =
      ["ntimestep", "natoms", "nprocs", "ncolumns", "boxxlo", "boxxhi", "boxylo", "boxyhi",
       "boxzlo", "boxzhi", "boxxy", "boxxz", "boxyz", "triclinic", "boundary", "columns",
       "columnstr", "boundarystr", "LAMMPS/dump_style", "LAMMPS/version", "LAMMPS/num_ver",
       "nme", "offset", "atoms"] := by
  unfold schemaCalls
  split_ifs <;> rfl

/-- A declaration call that is accepted keeps the IOs declared before. -/
theorem apply_keeps_ios (r r1 : Registry) (c : Decl) (h : r.apply c = Except.ok r1)
    (name : String) (hn : name ∈ r.ios) : name ∈ r1.ios := by
  cases c <;> simp only [Registry.apply] at h
  · split at h
    · simp at h
    · simp only [Except.ok.injEq] at h
      rw [← h]
      exact List.mem_append_left _ hn
  · simp only [Except.ok.injEq] at h
    rw [← h]
    exact hn
  · simp only [Except.ok.injEq] at h
    rw [← h]
    exact hn
  · split at h
    · simp at h
    · simp only [Except.ok.injEq] at h
      rw [← h]
      exact hn
  · split at h
    · simp at h
    · simp only [Except.ok.injEq] at h
      rw [← h]
      exact hn

theorem applyAll_keeps_ios (calls : List Decl) :
    ∀ (r : Registry) (name : String), name ∈ r.ios →
      name ∈ (r.applyAll calls).1.ios := by
  induction calls with
  | nil =>
    intro r name hn
    exact hn
  | cons c rest ih =>
    intro r name hn
    rw [Registry.applyAll]
    cases h : r.apply c with
    | error msg => exact hn
    | ok r1 => exact ih r1 name (apply_keeps_ios r r1 c h name hn)

/-- After a pass of the declaration calls without error the IO "custom" is
declared. -/
theorem applyAll_declares_custom (env : InitEnv) (d : InitFields) (r : Registry)
    (h : (r.applyAll (schemaCalls env d)).2 = none) :
    "custom" ∈ (r.applyAll (schemaCalls env d)).1.ios := by
  obtain ⟨rest, hrest⟩ := schemaCalls_cons env d
  rw [hrest] at h ⊢
  rw [Registry.applyAll] at h ⊢
  cases hap : r.apply (Decl.DeclareIO "custom") with
  | error msg =>
    rw [hap] at h
    simp at h
  | ok r1 =>
    simp only
    apply applyAll_keeps_ios
    simp only [Registry.apply] at hap
    split at hap
    · simp at hap
    · simp only [Except.ok.injEq] at hap
      rw [← hap]
      simp

/-- With the IO "custom" declared, the declaration calls are rejected at once. -/
theorem applyAll_rejects_second (env : InitEnv) (d : InitFields) (r : Registry)
    (h : "custom" ∈ r.ios) :
    r.applyAll (schemaCalls env d) = (r, some "IO custom declared twice") := by
  obtain ⟨rest, hrest⟩ := schemaCalls_cons env d
  rw [hrest, Registry.applyAll]
  simp only [Registry.apply, if_pos h]
  rfl

/-- The first pass of the declaration calls on a registry without declarations. -/
theorem applyAll_first (env : InitEnv) (d : InitFields) :
    (emptyRegistry.applyAll (schemaCalls env d)).2 = none ∧
    (emptyRegistry.applyAll (schemaCalls env d)).1.ios = ["custom"] ∧
    (emptyRegistry.applyAll (schemaCalls env d)).1.variableNames =
      ["ntimestep", "natoms", "nprocs", "ncolumns", "boxxlo", "boxxhi", "boxylo", "boxyhi",
       "boxzlo", "boxzhi", "boxxy", "boxxz", "boxyz", "nme", "offset", "atoms"] ∧
    (emptyRegistry.applyAll (schemaCalls env d)).1.attributeNames =
      ["triclinic", "boundary", "columns", "columnstr", "boundarystr", "LAMMPS/dump_style",
       "LAMMPS/version", "LAMMPS/num_ver"] := by
  unfold schemaCalls emptyRegistry
  split_ifs <;> simp [Registry.applyAll, Registry.apply]

/-- C11: the variable and attribute names that one pass of `init_style()`
declares are pairwise distinct; on a writer whose engine has no declaration yet,
a pass whose references resolve declares the IO "custom" and exactly these
names; and after a pass that returned, a second `init_style()` on the same
writer, whatever its settings, ends in a fatal error and leaves the registry of
the engine exactly as the first pass left it. -/
theorem schema_declared_once (env env2 : InitEnv) (d d2 : InitFields) (s : InitState)
    (hfirst : (init_style env d s).fatal = none) :
    (declaredNames (schemaCalls env d)).Nodup ∧
    (s.registry = emptyRegistry →
      (init_style env d s).state.registry.ios = ["custom"] ∧
      (init_style env d s).state.registry.variableNames =
        ["ntimestep", "natoms", "nprocs", "ncolumns", "boxxlo", "boxxhi", "boxylo",
         "boxyhi", "boxzlo", "boxzhi", "boxxy", "boxxz", "boxyz", "nme", "offset",
         "atoms"] ∧
      (init_style env d s).state.registry.attributeNames =
        ["triclinic", "boundary", "columns", "columnstr", "boundarystr",
         "LAMMPS/dump_style", "LAMMPS/version", "LAMMPS/num_ver"]) ∧
    (init_style env2 d2 (init_style env d s).state).fatal ≠ none ∧
    (init_style env2 d2 (init_style env d s).state).state.registry
      = (init_style env d s).state.registry := by
  have hres : init_style_resolve env d = none := by
    unfold init_style at hfirst
    dsimp only at hfirst
    cases h : init_style_resolve env d with
    | none => rfl
    | some msg =>
      rw [h] at hfirst
      simp at hfirst
  have hstate : (init_style env d s).state.registry
      = (s.registry.applyAll (schemaCalls env d)).1 := by
    unfold init_style
    dsimp only
    rw [hres]
  have hfatal : (s.registry.applyAll (schemaCalls env d)).2 = none := by
    unfold init_style at hfirst
    dsimp only at hfirst
    rw [hres] at hfirst
    exact hfirst
  have hcustom : "custom" ∈ (init_style env d s).state.registry.ios := by
    rw [hstate]
    exact applyAll_declares_custom env d s.registry hfatal
  refine ⟨?_, ?_, ?_, ?_⟩
  · rw [declaredNames_schemaCalls]
    decide
  · intro hempty
    rw [hstate, hempty]
    exact (applyAll_first env d).2
  · generalize (init_style env d s).state = s1 at hcustom ⊢
    unfold init_style
    dsimp only
    cases init_style_resolve env2 d2 with
    | some msg => simp
    | none =>
      dsimp only
      rw [applyAll_rejects_second env2 d2 s1.registry hcustom]
      simp
  · generalize (init_style env d s).state = s1 at hcustom ⊢
    unfold init_style
    dsimp only
    cases init_style_resolve env2 d2 with
    | some msg => rfl
    | none =>
      dsimp only
      rw [applyAll_rejects_second env2 d2 s1.registry hcustom]

/-- Witness of C11: a dump without references, initialised twice. -/
theorem schema_declared_once_witness :
    (init_style emptyEnv plainFields
      (init_style emptyEnv plainFields (freshInit "dump.%.bp")).state).fatal ≠ none ∧
    (init_style emptyEnv plainFields
      (init_style emptyEnv plainFields (freshInit "dump.%.bp")).state).state.registry
      = (init_style emptyEnv plainFields (freshInit "dump.%.bp")).state.registry :=
  (schema_declared_once emptyEnv emptyEnv plainFields plainFields (freshInit "dump.%.bp")
    (by decide)).2.2

end DumpADIOS
